import Mathlib

/-!
Verification development for the `momentum` rebalancing utilities.

The definitions below are a shallow embedding of `src/rebalance.py`:
* the curve evaluator `compute_mult` and its tables (`CURVES`,
  `NEGATIVE_TARGETS`, `MAX_ROW`),
* the idempotent skill-file patcher `process_skill_file` together with the
  concrete regular-expression matchers it uses (`target/multiplier`
  occurrence search, backward `row:` marker search, `multiplier:` and
  `effectDescription` substitutions),
* the milestone value formatter.

Python floats are modelled by exact rationals (`ℚ`); `round(x, n)` is
modelled by round-half-to-even on the exact value (`roundHalfEven`), which
agrees with the floating-point computation on every value reachable from the
tables (all reachable rounding arguments are at distance at least `1/3400`
from a tie, far above double rounding error).  Text is modelled as
`List Char`; the Python regexes used by the script are implemented directly
as the scanning functions below (`re.search` scans for the leftmost match
position; `.*?` is the lazy scan `lazyMult` that cannot cross a newline;
`\b` is the word-boundary test threaded through `searchRowGo`).
-/

/-- Python `\w` (ASCII part): letters, digits and underscore. -/
def wordChar (c : Char) : Bool := c.isAlphanum || c = '_'

/-- Python `\s`: the six whitespace characters. -/
def pySpace (c : Char) : Bool :=
  c = ' ' || c = '\t' || c = '\n' || c = '\r' || c = '\x0b' || c = '\x0c'

/-- Match a literal string prefix; return the remainder on success. -/
def stripLit : List Char → List Char → Option (List Char)
  | [], s => some s
  | _ :: _, [] => none
  | c :: cs, d :: ds => if c = d then stripLit cs ds else none

/-- `\d+`: at least one digit, greedy; returns (digits, rest). -/
def digits1 (s : List Char) : Option (List Char × List Char) :=
  match s.takeWhile Char.isDigit with
  | [] => none
  | d :: ds => some (d :: ds, s.dropWhile Char.isDigit)

/-- `\d+\.?\d*`: the unsigned part of the numeric-literal token, greedy;
returns (token, rest). -/
def numTokU (s : List Char) : Option (List Char × List Char) :=
  match digits1 s with
  | none => none
  | some (ds, r) =>
    match r with
    | '.' :: r2 =>
      some (ds ++ '.' :: r2.takeWhile Char.isDigit, r2.dropWhile Char.isDigit)
    | _ => some (ds, r)

/-- `-?\d+\.?\d*`: the numeric-literal token of the patcher's regexes,
greedy; returns (token, rest). -/
def numTok (s : List Char) : Option (List Char × List Char) :=
  if s.head? = some '-' then
    match numTokU s.tail with
    | none => none
    | some (n, r) => some ('-' :: n, r)
  else numTokU s

/-- Decimal digits to a natural number. -/
def natOfDigits (ds : List Char) : Nat :=
  ds.foldl (fun a c => 10 * a + (c.toNat - 48)) 0

/-- Exact value of an unsigned decimal literal (`\d+` optionally followed by
`.` and `\d*`), as Python `float` parses it (modelled exactly in `ℚ`). -/
def parseDec (s : List Char) : ℚ :=
  let ip := s.takeWhile Char.isDigit
  match s.dropWhile Char.isDigit with
  | '.' :: r2 =>
    (natOfDigits ip : ℚ) +
      (natOfDigits (r2.takeWhile Char.isDigit) : ℚ) / (10 : ℚ) ^ (r2.takeWhile Char.isDigit).length
  | _ => (natOfDigits ip : ℚ)

/-- Exact value of a `-?\d+\.?\d*` token. -/
def parseNum : List Char → ℚ
  | '-' :: s => -(parseDec s)
  | s => parseDec s

/-- Kernel-reducible `a ≤ b` on `ℚ`. -/
def qle (a b : ℚ) : Bool := !(Rat.blt b a)

/-- Kernel-reducible `a < b` on `ℚ`. -/
def qlt (a b : ℚ) : Bool := Rat.blt a b

/-- Kernel-reducible `⌊x⌋` on `ℚ`. -/
def qfloor (x : ℚ) : ℤ := x.num / x.den

/-- Kernel-reducible `|x|` on `ℚ`. -/
def qabs (x : ℚ) : ℚ := if qle 0 x then x else -x

/-- Python `round` to an integer: round half to even. -/
def roundHalfEven (x : ℚ) : ℤ :=
  let n := qfloor x
  if qlt (x - n) (1/2) then n
  else if qlt (1/2) (x - n) then n + 1
  else if n % 2 = 0 then n else n + 1

/-- Python `round(x, 2)` on the exact value. -/
def pyRound2 (x : ℚ) : ℚ := (roundHalfEven (x * 100) : ℚ) / 100

/-- `0`–`9` as a character. -/
def digitChar (n : Nat) : Char := Char.ofNat (48 + n % 10)

/-- Decimal rendering of a natural number. -/
def natToChars (n : Nat) : List Char :=
  if _h : n < 10 then [digitChar n]
  else natToChars (n / 10) ++ [digitChar (n % 10)]
termination_by n
decreasing_by exact Nat.div_lt_self (by omega) (by omega)

/-! ## Progression curves (`rebalance.py` lines 35–53) -/

/-- `CURVES`: target name ↦ (base at row 0, top at row 17). -/
def CURVES : List (List Char × ℚ × ℚ) := [
  ("allIncome".data,          (1/100,  3/100)),
  ("businessRevenue".data,    (2/100,  6/100)),
  ("customerAttraction".data, (3/100,  8/100)),
  ("jobEfficiency".data,      (5/100, 14/100)),
  ("costReduction".data,      (2/100,  6/100)),
  ("stockReturn".data,        (3/100,  8/100)),
  ("cryptoReturn".data,       (3/100,  9/100)),
  ("realEstateRent".data,     (3/100,  9/100)),
  ("gamblingLuck".data,       (2/100,  6/100)),
  ("offlineEfficiency".data,  (3/100,  9/100)),
  ("xpGain".data,             (3/100,  8/100)),
  ("prestigeGain".data,       (2/100,  6/100)),
  ("loanRate".data,           (2/100,  6/100)),
  ("depositRate".data,        (5/100, 12/100))]

def NEGATIVE_TARGETS : List (List Char) := ["costReduction".data, "loanRate".data]

def MAX_ROW : Nat := 17

/-- Association-list lookup modelling the Python dict access `CURVES[target]`. -/
def lookupCurve (t : List Char) : List (List Char × ℚ × ℚ) → Option (ℚ × ℚ)
  | [] => none
  | (k, v) :: rest => if t = k then some v else lookupCurve t rest

/-- Python `min(x, 1.0)` (kernel-reducible form). -/
def minQ1 (x : ℚ) : ℚ := if qle x 1 then x else 1

/-- Python `max(0.01, m)` (kernel-reducible form). -/
def maxQfloor (m : ℚ) : ℚ := if qle m (1/100) then 1/100 else m

/-- The `if row in (8, 12, 16) ... elif row == 17 ...` checkpoint-bonus
branch of `compute_mult`, as the factor it multiplies by. -/
def checkFactor (row : Nat) : ℚ :=
  if row = 8 ∨ row = 12 ∨ row = 16 then 3/2
  else if row = 17 then 2 else 1

/-- The body of `compute_mult` after the curve lookup: interpolation,
checkpoint bonus, rounding, floor (`rebalance.py` lines 60–67). -/
def coreM (base top : ℚ) (row : Nat) : ℚ :=
  maxQfloor (pyRound2
    ((base + (top - base) * minQ1 ((row : ℚ) / (MAX_ROW : ℚ))) * checkFactor row))

/-- The sign step of `compute_mult` (`rebalance.py` lines 68–69). -/
def signApply (target : List Char) (m : ℚ) : ℚ :=
  if target ∈ NEGATIVE_TARGETS then -m else m

/-- `compute_mult(row, target)` (`rebalance.py` lines 56–70). -/
def compute_mult (row : Nat) (target : List Char) : Option ℚ :=
  match lookupCurve target CURVES with
  | none => none
  | some (base, top) => some (signApply target (coreM base top row))

/-- `fmt_pct(v)` (`rebalance.py` lines 73–77): `p = round(abs(v)*100, 1)`;
drop the decimal when `p` is integral (`r` below is `10 * p`). -/
def fmt_pct (v : ℚ) : List Char :=
  let r := roundHalfEven (|v| * 100 * 10)
  if r % 10 = 0 then natToChars (r.natAbs / 10)
  else natToChars (r.natAbs / 10) ++ '.' :: [digitChar (r.natAbs % 10)]

/-- Python `f"{x:.2f}"` on the exact value (applied by the patcher only to
curve outputs, whose magnitude is at least `0.01`, so the rounded integer is
nonzero exactly when `x` is negative and the sign is rendered faithfully). -/
def fmt2 (q : ℚ) : List Char :=
  let r := roundHalfEven (q * 100)
  (if r < 0 then ['-'] else []) ++ natToChars (r.natAbs / 100) ++
    '.' :: [digitChar (r.natAbs / 10 % 10), digitChar (r.natAbs % 10)]

/-! ## The skill-file patcher (`process_skill_file`, `rebalance.py` lines 84–134) -/

/-- The literal `multiplier:`. -/
def mLit : List Char := "multiplier:".data

/-- The literal `target:`. -/
def tLit : List Char := "target:".data

/-- The literal `effectDescription:`. -/
def eLit : List Char := "effectDescription:".data

/-- The bare word `effectDescription` (no colon), as tested by the
`'effectDescription' in lines[j]` containment check of the description
scan (`rebalance.py` line 122). -/
def eWord : List Char := "effectDescription".data

/-- The literal `row:`. -/
def rLit : List Char := "row:".data

/-- The single-quote character. -/
def q1 : Char := Char.ofNat 39

/-- Match `multiplier:\s*(-?\d+\.?\d*)` at the current position; returns
(the group-1 text `multiplier:` plus the spaces, the numeric token, the
rest). -/
def tryMultAt (s : List Char) : Option (List Char × List Char × List Char) :=
  match stripLit mLit s with
  | none => none
  | some r1 =>
    match numTok (r1.dropWhile pySpace) with
    | none => none
    | some (num, rest) => some (mLit ++ r1.takeWhile pySpace, num, rest)

/-- The lazy `.*?multiplier:\s*(-?\d+\.?\d*)` tail of the occurrence regex:
try the `multiplier` part at each position, left to right; `.` cannot cross
a newline.  Returns the captured numeric token. -/
def lazyMult : List Char → Option (List Char)
  | [] => none
  | c :: t =>
    match tryMultAt (c :: t) with
    | some (_, num, _) => some num
    | none => if c = '\n' then none else lazyMult t

/-- Match `target:\s*'(\w+)'.*?multiplier:\s*(-?\d+\.?\d*)` at the current
position; returns (target name, numeric token). -/
def tryTMAt (s : List Char) : Option (List Char × List Char) :=
  match stripLit tLit s with
  | none => none
  | some r1 =>
    match r1.dropWhile pySpace with
    | c :: r3 =>
      if c = q1 then
        match r3.takeWhile wordChar with
        | [] => none
        | w0 :: w =>
          match r3.dropWhile wordChar with
          | d :: r5 =>
            if d = q1 then (lazyMult r5).map (fun num => (w0 :: w, num)) else none
          | [] => none
      else none
    | [] => none

/-- `re.search` of the occurrence pattern: leftmost matching position. -/
def searchTM : List Char → Option (List Char × List Char)
  | [] => none
  | c :: t =>
    match tryTMAt (c :: t) with
    | some res => some res
    | none => searchTM t

/-- Match `row:\s*(\d+)` at the current position (the `\b` word-boundary
check is done by the caller). -/
def tryRowAt (s : List Char) : Option Nat :=
  match stripLit rLit s with
  | none => none
  | some r1 =>
    match digits1 (r1.dropWhile pySpace) with
    | none => none
    | some (ds, _) => some (natOfDigits ds)

/-- `re.search(r'\brow:\s*(\d+)', ...)`: scan left to right; an attempt is
made only where the previous character is not a word character. -/
def searchRowGo : Bool → List Char → Option Nat
  | _, [] => none
  | pw, c :: t =>
    match (if pw then none else tryRowAt (c :: t)) with
    | some n => some n
    | none => searchRowGo (wordChar c) t

/-- Row-marker extraction from one line. -/
def searchRowLine (l : List Char) : Option Nat := searchRowGo false l

/-- Match `(effectDescription:\s*')[+-]\d+(?:\.\d+)?(%)` at the current
position; returns (the group-1 text, the rest after the `%`). -/
def tryDescAt (s : List Char) : Option (List Char × List Char) :=
  match stripLit eLit s with
  | none => none
  | some r1 =>
    match r1.dropWhile pySpace with
    | c :: r3 =>
      if c = q1 then
        match r3 with
        | sg :: r4 =>
          if sg = '+' ∨ sg = '-' then
            match digits1 r4 with
            | none => none
            | some (_, r5) =>
              let r6 := match r5 with
                | '.' :: r5a =>
                  match digits1 r5a with
                  | some (_, r5b) => r5b
                  | none => r5
                | _ => r5
              match r6 with
              | p :: rest =>
                if p = '%' then some (eLit ++ r1.takeWhile pySpace ++ [q1], rest)
                else none
              | [] => none
          else none
        | [] => none
      else none
    | [] => none

/-- `re.sub` of the `effectDescription` pattern with replacement
`\g<1>{sign}{ps}\g<2>` and `count=1`: rewrite the leftmost match. -/
def descSubLine (l : List Char) (sg : Char) (ps : List Char) : List Char :=
  match l with
  | [] => []
  | c :: t =>
    match tryDescAt (c :: t) with
    | some (g1, rest) => g1 ++ sg :: (ps ++ '%' :: rest)
    | none => c :: descSubLine t sg ps

/-- `re.sub(r'(multiplier:\s*)-?\d+\.?\d*', r'\g<1>' + repl, line, count=1)`:
rewrite the leftmost match. -/
def subMultLine (l : List Char) (repl : List Char) : List Char :=
  match l with
  | [] => []
  | c :: t =>
    match tryMultAt (c :: t) with
    | some (g1, _, rest) => g1 ++ repl ++ rest
    | none => c :: subMultLine t repl

/-- Python `pat in line` (substring containment). -/
def containsSub (pat : List Char) : List Char → Bool
  | [] => pat.isEmpty
  | c :: t => pat.isPrefixOf (c :: t) || containsSub pat t

/-- Number of (possibly overlapping) occurrence positions of `pat`. -/
def countSub (pat : List Char) : List Char → Nat
  | [] => 0
  | c :: t => (if pat.isPrefixOf (c :: t) then 1 else 0) + countSub pat t

/-- The backward scan indices `range(i-1, max(i-8,-1), -1)` of the row
search: `i-1` down to `i-7` (clamped at 0). -/
def rowWindow (i : Nat) : List Nat := (List.range' (i - 7) (i - (i - 7))).reverse

/-- The backward scan indices `range(i-1, max(i-5,-1), -1)` of the
description search: `i-1` down to `i-4` (clamped at 0). -/
def descWindow (i : Nat) : List Nat := (List.range' (i - 4) (i - (i - 4))).reverse

/-- The occurrence regex applied to line `i`. -/
def occAt (L : List (List Char)) (i : Nat) : Option (List Char × List Char) :=
  searchTM (L.getD i [])

/-- The backward row-marker search for an occurrence on line `i`. -/
def rowAt (L : List (List Char)) (i : Nat) : Option Nat :=
  (rowWindow i).findSome? (fun j => searchRowLine (L.getD j []))

/-- The backward search for the nearest preceding line containing the bare
substring `effectDescription` (no colon), as in `rebalance.py` line 122. -/
def descAt (L : List (List Char)) (i : Nat) : Option Nat :=
  (descWindow i).find? (fun j => containsSub eWord (L.getD j []))

/-- The decision made for line `i`: `some nm` exactly when the patcher
rewrites the line (occurrence found, row marker found, curve configured,
difference at least the `0.001` tolerance); `none` on every skip path. -/
def decideAt (L : List (List Char)) (i : Nat) : Option ℚ :=
  match occAt L i with
  | none => none
  | some (tgt, num) =>
    match rowAt L i with
    | none => none
    | some row =>
      match compute_mult row tgt with
      | none => none
      | some nm => if qlt (qabs (nm - parseNum num)) (1/1000) then none else some nm

/-- The multiplier-literal substitution on line `i` (`rebalance.py` lines
113–117). -/
def multRewrite (L : List (List Char)) (i : Nat) (nm : ℚ) : List (List Char) :=
  L.set i (subMultLine (L.getD i []) (fmt2 nm))

/-- The rewrite performed for line `i` with computed value `nm`: substitute
the multiplier literal, then propagate the percentage into the nearest
preceding `effectDescription` line (if any) within the 4-line window. -/
def applyAt (L : List (List Char)) (i : Nat) (nm : ℚ) : List (List Char) :=
  match descAt (multRewrite L i nm) i with
  | none => multRewrite L i nm
  | some j =>
    (multRewrite L i nm).set j
      (descSubLine ((multRewrite L i nm).getD j []) (if qle 0 nm then '+' else '-')
        (fmt_pct nm))

/-- One iteration of the patcher's main loop (`for i in range(len(lines))`),
acting on the state (current lines, change count). -/
def stepAt (st : List (List Char) × Nat) (i : Nat) : List (List Char) × Nat :=
  match decideAt st.1 i with
  | none => st
  | some nm => (applyAt st.1 i nm, st.2 + 1)

/-- `process_skill_file` on the in-memory line list: returns the rewritten
lines and the reported change count. -/
def process_skill_file (lines : List (List Char)) : List (List Char) × Nat :=
  (List.range lines.length).foldl stepAt (lines, 0)

/-! ## Milestone value formatting (`rebalance.py` lines 297–353) -/

/-- `MILESTONE_REWARDS`: (milestone id, reward type) ↦ value. -/
def MILESTONE_REWARDS : List ((List Char × List Char) × ℚ) := [
  (("ms_points_10".data,   "global_multiplier".data), 8/1000),
  (("ms_points_50".data,   "prestige_gain".data),     15/1000),
  (("ms_points_100".data,  "global_multiplier".data), 15/1000),
  (("ms_points_500".data,  "prestige_gain".data),     25/1000),
  (("ms_points_500".data,  "xp_gain".data),           15/1000),
  (("ms_points_1000".data, "global_multiplier".data), 3/100),
  (("ms_points_5000".data, "global_multiplier".data), 5/100),
  (("ms_points_5000".data, "prestige_gain".data),     4/100),
  (("ms_points_10000".data, "global_multiplier".data), 8/100),
  (("ms_points_10000".data, "offline_bonus".data),    3/100),
  (("ms_rebirth_1".data,   "prestige_gain".data),     8/1000),
  (("ms_rebirth_5".data,   "job_efficiency".data),    15/1000),
  (("ms_rebirth_10".data,  "prestige_gain".data),     25/1000),
  (("ms_rebirth_10".data,  "global_multiplier".data), 15/1000),
  (("ms_rebirth_25".data,  "global_multiplier".data), 3/100),
  (("ms_rebirth_25".data,  "loan_discount".data),     3/1000),
  (("ms_rebirth_50".data,  "global_multiplier".data), 5/100),
  (("ms_rebirth_50".data,  "prestige_gain".data),     4/100),
  (("ms_rebirth_50".data,  "offline_bonus".data),     25/1000),
  (("ms_rebirth_100".data, "global_multiplier".data), 8/100),
  (("ms_rebirth_100".data, "prestige_gain".data),     6/100),
  (("ms_upgrades_5".data,  "prestige_gain".data),     8/1000),
  (("ms_upgrades_25".data, "global_multiplier".data), 15/1000),
  (("ms_upgrades_25".data, "cost_reduction".data),    8/1000),
  (("ms_upgrades_50".data, "prestige_gain".data),     3/100),
  (("ms_upgrades_50".data, "xp_gain".data),           2/100)]

/-- Python `f"{nv:.4f}"` on the exact value (the table values are positive,
so the sign path is exact). -/
def fmt4 (q : ℚ) : List Char :=
  let r := roundHalfEven (q * 10000)
  (if r < 0 then ['-'] else []) ++ natToChars (r.natAbs / 10000) ++
    '.' :: [digitChar (r.natAbs / 1000 % 10), digitChar (r.natAbs / 100 % 10),
            digitChar (r.natAbs / 10 % 10), digitChar (r.natAbs % 10)]

/-- The milestone literal formatting (lines 346–348): `f"{nv:.4f}"`, strip
trailing `'0'`s, re-append one `'0'` if the result ends in `'.'`. -/
def msFmt (v : ℚ) : List Char :=
  let s := ((fmt4 v).reverse.dropWhile (fun c => c = '0')).reverse
  if s.getLast? = some '.' then s ++ ['0'] else s

/-! ## Bounded checks and concrete documents used by the theorems -/

/-- Bounded check for curve monotonicity off the checkpoint positions:
for every configured curve and every `p < 17` other than 8, 12, 16,
`coreM` does not decrease from `p` to `p + 1`. -/
def monoCheck : Bool :=
  (CURVES.map Prod.snd).all (fun bt =>
    (List.range 17).all (fun p =>
      (p == 8 || p == 12 || p == 16) || qle (coreM bt.1 bt.2 p) (coreM bt.1 bt.2 (p + 1))))

/-- Bounded check: for every configured curve, the un-boosted top value is
strictly below the capstone value at row 17. -/
def strictTopCheck : Bool :=
  (CURVES.map Prod.snd).all (fun bt =>
    qlt (maxQfloor (pyRound2 bt.2)) (coreM bt.1 bt.2 17))

/-- A single-quoted word, used to build concrete document lines without
quote characters inside string literals. -/
def quoted (s : String) : List Char := q1 :: (s.data ++ [q1])

/-- Concrete two-line document refuting the idempotence claim: the line
carries two `multiplier:` literals; the occurrence regex captures the second
one while `re.sub` rewrites the first, so every pass reports one change. -/
def cexDoc : List (List Char) := [
  "row: 3".data,
  "multiplier: 5 target: ".data ++ quoted "allIncome" ++ " multiplier: 7".data]

/-- Concrete three-line document on which the patcher's second pass also
changes bytes: two occurrences share the `effectDescription` line, and the
second pass re-propagates the first occurrence's percentage over the one the
first pass wrote last. -/
def cexDoc3 : List (List Char) := [
  "row: 3 effectDescription: ".data ++ quoted "+9%",
  "row: 17 multiplier: 9 target: ".data ++ quoted "allIncome" ++ " multiplier: 7".data,
  "target: ".data ++ quoted "allIncome" ++ " multiplier: 7".data]

/-- A concrete well-formed skill-file fragment (used by witnesses). -/
def wellDoc : List (List Char) := [
  "    effectDescription: ".data ++ quoted "+5%" ++ ",".data,
  "    row: 12,".data,
  "    target: ".data ++ quoted "gamblingLuck" ++ ", multiplier: 0.05,".data]

/-- Concrete document whose stored value `0.0591` is within `0.0009` of the
computed value `0.06` (tolerance witness, skip side). -/
def tolDocA : List (List Char) := [
  "row: 17,".data,
  "target: ".data ++ quoted "allIncome" ++ " multiplier: 0.0591".data]

/-- Concrete document whose stored value `0.0611` differs from the computed
value `0.06` by `0.0011` (tolerance witness, rewrite side). -/
def tolDocB : List (List Char) := [
  "row: 17,".data,
  "target: ".data ++ quoted "allIncome" ++ " multiplier: 0.0611".data]

/-- Concrete document with a decoy `row:` marker exactly 8 lines before the
occurrence (just outside the 7-line window) and no marker inside it. -/
def decoyDoc : List (List Char) := [
  "row: 5".data,
  "a".data, "b".data, "c".data, "d".data, "e".data, "f".data, "g".data,
  "target: ".data ++ quoted "allIncome" ++ " multiplier: 7".data]

/-- The same document with the decoy marker removed. -/
def decoyDocB : List (List Char) := [
  "nothing".data,
  "a".data, "b".data, "c".data, "d".data, "e".data, "f".data, "g".data,
  "target: ".data ++ quoted "allIncome" ++ " multiplier: 7".data]

/-- Boolean shape check for a formatted milestone literal: some text, one
dot, then 1–4 decimal digits whose last digit is not a dropped zero (a
single `'0'` digit is allowed, as for integral values). -/
def decShape (s : List Char) : Bool :=
  let ds := (s.reverse.takeWhile Char.isDigit).reverse
  ((s.reverse.dropWhile Char.isDigit).head? == some '.') &&
    decide (1 ≤ ds.length) && decide (ds.length ≤ 4) &&
    (decide (ds = ['0']) || !(decide (ds.getLast? = some '0')))

/-- Bounded check that every milestone table value formats to the claimed
shape. -/
def msCheck : Bool := MILESTONE_REWARDS.all (fun p => decShape (msFmt p.2))

/-- Shape of the percentage region of an `effectDescription` match (and of
its replacement): a sign, then digits and dots, then `%`. -/
def RegionShape (R : List Char) : Prop :=
  ∃ s0 mid, R = s0 :: (mid ++ ['%']) ∧ (s0 = '+' ∨ s0 = '-') ∧
    ∀ c ∈ mid, (c.isDigit = true ∨ c = '.')

/-- The context around a percentage region inside a line: the
`effectDescription:` literal, spaces, a quote, the region, the rest. -/
def dctx (sp R suf : List Char) : List Char := eLit ++ (sp ++ (q1 :: (R ++ suf)))

/-- `overlapFreeTo a b n = true` when no nonempty suffix of `a` of length at
most `n` is a prefix of `b`. -/
def overlapFreeTo (a b : List Char) (n : Nat) : Bool :=
  (List.range n).all (fun k => !(decide (a.drop (a.length - (k + 1)) = b.take (k + 1))))

/-- `NoM v sp2`: in the list `v ++ multiplier: ++ sp2` the only occurrence of
the `multiplier:` literal starts at position `v.length`. -/
def NoM (v sp2 : List Char) : Prop :=
  ∀ y z, v ++ (mLit ++ sp2) = y ++ (mLit ++ z) → y = v

/-- `l2` is obtained from `l` by a (possibly empty) sequence of
`effectDescription` substitutions with well-formed sign and percentage
arguments. -/
def DescStar (l l2 : List Char) : Prop :=
  ∃ ops : List (Char × List Char),
    (∀ op ∈ ops, (op.1 = '+' ∨ op.1 = '-') ∧ ∀ c ∈ op.2, c.isDigit = true ∨ c = '.') ∧
    l2 = ops.foldl (fun acc op => descSubLine acc op.1 op.2) l

/-- The patcher state after the first `j` iterations of the main loop. -/
def traj (L0 : List (List Char)) (j : Nat) : List (List Char) × Nat :=
  (List.range j).foldl stepAt (L0, 0)

/-- The outcome of a `tryTMAt` attempt at a position lying before the sole
`multiplier:` occurrence of a line, as a function of the text `x` between
the attempt position and that occurrence: `some w` exactly when the
`target:`-part matches inside `x` and the lazy scan reaches the occurrence
(no newline in between); the captured numeric token is then the one at the
occurrence. -/
def tmShape (x : List Char) : Option (List Char) :=
  match stripLit tLit x with
  | none => none
  | some x1 =>
    match x1.dropWhile pySpace with
    | c :: x2 =>
      if c = q1 then
        match x2.takeWhile wordChar with
        | [] => none
        | w0 :: w1 =>
          match x2.dropWhile wordChar with
          | d :: x3 =>
            if d = q1 then (if '\n' ∈ x3 then none else some (w0 :: w1)) else none
          | [] => none
      else none
    | [] => none

/-- First `tmShape` hit over the successive positions of `v`. -/
def smShape : List Char → Option (List Char)
  | [] => none
  | c :: t =>
    match tmShape (c :: t) with
    | some w => some w
    | none => smShape t

/-! # Theorems

Bridges between the kernel-reducible primitives and the Mathlib order and
floor on `ℚ` (the Batteries order on `Rat` is definitionally `Rat.blt`). -/

theorem qlt_iff (a b : ℚ) : qlt a b = true ↔ a < b := Iff.rfl

theorem qle_iff (a b : ℚ) : qle a b = true ↔ a ≤ b := by
  rw [qle, Bool.not_eq_true']
  exact Iff.rfl

theorem qabs_eq (x : ℚ) : qabs x = |x| := by
  rw [qabs]
  by_cases h : (0 : ℚ) ≤ x
  · rw [if_pos ((qle_iff 0 x).mpr h), abs_of_nonneg h]
  · rw [if_neg (fun hc => h ((qle_iff 0 x).mp hc)), abs_of_neg (lt_of_not_le h)]

/-! Basic facts about the curve evaluator. -/

theorem maxQfloor_ge (m : ℚ) : 1/100 ≤ maxQfloor m := by
  rw [maxQfloor]
  split
  · exact le_refl _
  · next h => exact le_of_lt (lt_of_not_le (fun hle => h ((qle_iff m (1/100)).mpr hle)))

theorem coreM_ge (b t : ℚ) (r : Nat) : 1/100 ≤ coreM b t r := maxQfloor_ge _

theorem coreM_nonneg (b t : ℚ) (r : Nat) : 0 ≤ coreM b t r :=
  le_trans (by norm_num) (coreM_ge b t r)

theorem abs_signApply (tgt : List Char) (m : ℚ) (h : 0 ≤ m) :
    |signApply tgt m| = m := by
  rw [signApply]
  split
  · rw [abs_neg, abs_of_nonneg h]
  · exact abs_of_nonneg h

theorem lookupCurve_mem (tgt : List Char) (bt : ℚ × ℚ) :
    ∀ l : List (List Char × ℚ × ℚ), lookupCurve tgt l = some bt → bt ∈ l.map Prod.snd := by
  intro l
  induction l with
  | nil => intro h; exact absurd h (by simp [lookupCurve])
  | cons kv rest ih =>
    intro h
    rw [lookupCurve] at h
    by_cases hk : tgt = kv.1
    · rw [if_pos hk] at h
      injection h with h
      simp [h]
    · rw [if_neg hk] at h
      simp [ih h]

theorem compute_mult_some (r : Nat) (tgt : List Char) (q : ℚ)
    (h : compute_mult r tgt = some q) :
    ∃ b t, lookupCurve tgt CURVES = some (b, t) ∧ q = signApply tgt (coreM b t r) := by
  rw [compute_mult] at h
  cases hl : lookupCurve tgt CURVES with
  | none => rw [hl] at h; exact absurd h (by simp)
  | some bt =>
    obtain ⟨b, t⟩ := bt
    rw [hl] at h
    refine ⟨b, t, rfl, ?_⟩
    injection h with h
    exact h.symm

theorem compute_mult_eq (r : Nat) (tgt : List Char) (b t : ℚ)
    (h : lookupCurve tgt CURVES = some (b, t)) :
    compute_mult r tgt = some (signApply tgt (coreM b t r)) := by
  rw [compute_mult, h]

/-- C3: concrete curve evaluations.  `compute_mult(17, 'allIncome')` with
curve `(0.01, 0.03)` returns exactly `0.06` (capstone factor applied, target
not negative), and `compute_mult(8, 'costReduction')` with curve
`(0.02, 0.06)` returns exactly `-0.06` (convergence factor applied, rounded,
negated). -/
theorem C3_concrete_curve_evaluations :
    lookupCurve ("allIncome".data) CURVES = some (1/100, 3/100) ∧
    compute_mult 17 ("allIncome".data) = some (6/100) ∧
    lookupCurve ("costReduction".data) CURVES = some (2/100, 6/100) ∧
    compute_mult 8 ("costReduction".data) = some (-(6/100)) :=
  ⟨by with_unfolding_all rfl, by with_unfolding_all rfl,
   by with_unfolding_all rfl, by with_unfolding_all rfl⟩

/-- C6: sign invariant.  Whenever `compute_mult` returns a value, that value
is non-positive if the target is in the negative-target set and non-negative
otherwise. -/
theorem C6_sign_invariant (tgt : List Char) (r : Nat) (q : ℚ)
    (h : compute_mult r tgt = some q) :
    (tgt ∈ NEGATIVE_TARGETS → q ≤ 0) ∧ (tgt ∉ NEGATIVE_TARGETS → 0 ≤ q) := by
  obtain ⟨b, t, _, hq⟩ := compute_mult_some r tgt q h
  subst hq
  constructor
  · intro hm
    rw [signApply, if_pos hm]
    exact neg_nonpos_of_nonneg (coreM_nonneg b t r)
  · intro hm
    rw [signApply, if_neg hm]
    exact coreM_nonneg b t r

theorem C6_witness :
    ((-(6 : ℚ)/100) ≤ 0) ∧ ((0 : ℚ) ≤ 6/100) :=
  ⟨by
    have h := (C6_sign_invariant ("costReduction".data) 8 (-(6 : ℚ)/100)
      (by with_unfolding_all rfl)).1 (by decide)
    exact h,
   by
    have h := (C6_sign_invariant ("allIncome".data) 17 ((6 : ℚ)/100)
      (by with_unfolding_all rfl)).2 (by decide)
    exact h⟩

theorem minQ1_one : minQ1 1 = 1 := by
  rw [minQ1]
  split <;> rfl

theorem minQ1_gt (x : ℚ) (h : 1 < x) : minQ1 x = 1 := by
  rw [minQ1, if_neg]
  intro hc
  exact absurd ((qle_iff x 1).mp hc) (not_le_of_lt h)

theorem cast_div_seventeen_eq_one : ((17 : Nat) : ℚ) / ((MAX_ROW : Nat) : ℚ) = 1 := by
  norm_num [MAX_ROW]

theorem cast_div_seventeen_gt (p : Nat) (h : 17 < p) :
    1 < ((p : Nat) : ℚ) / ((MAX_ROW : Nat) : ℚ) := by
  rw [MAX_ROW]
  rw [lt_div_iff₀ (by norm_num : (0 : ℚ) < ((17 : Nat) : ℚ)), one_mul]
  exact_mod_cast h

theorem checkFactor_17 : checkFactor 17 = 2 := by norm_num [checkFactor]

theorem checkFactor_conv (r : Nat) (h : r = 8 ∨ r = 12 ∨ r = 16) :
    checkFactor r = 3/2 := by rw [checkFactor, if_pos h]

theorem checkFactor_plain (r : Nat) (h1 : ¬(r = 8 ∨ r = 12 ∨ r = 16)) (h2 : r ≠ 17) :
    checkFactor r = 1 := by rw [checkFactor, if_neg h1, if_neg h2]

theorem coreM_seventeen (b t : ℚ) :
    coreM b t 17 = maxQfloor (pyRound2 ((b + (t - b)) * 2)) := by
  rw [coreM, cast_div_seventeen_eq_one, minQ1_one, mul_one, checkFactor_17]

theorem coreM_beyond (b t : ℚ) (p : Nat) (hp : 17 < p) :
    coreM b t p = maxQfloor (pyRound2 t) := by
  rw [coreM, minQ1_gt _ (cast_div_seventeen_gt p hp), mul_one,
    checkFactor_plain p (by omega) (by omega), mul_one]
  norm_num

theorem compute_mult_abs (r : Nat) (tgt : List Char) (b t : ℚ) (q : ℚ)
    (hl : lookupCurve tgt CURVES = some (b, t)) (h : compute_mult r tgt = some q) :
    |q| = coreM b t r := by
  rw [compute_mult_eq r tgt b t hl] at h
  injection h with h
  rw [← h, abs_signApply _ _ (coreM_nonneg b t r)]

/-- C5: checkpoint precedence and mutual exclusion.  At row 17 only the
capstone factor `2.0` is applied; at rows 8, 12, 16 only the convergence
factor `1.5` is applied; `checkFactor` never equals `1.5 * 2.0 = 3`, and it
equals `2` exactly at row 17. -/
theorem C5_checkpoint_precedence (tgt : List Char) (b t : ℚ)
    (h : lookupCurve tgt CURVES = some (b, t)) :
    compute_mult 17 tgt = some (signApply tgt (maxQfloor (pyRound2 ((b + (t - b)) * 2)))) ∧
    (∀ r : Nat, (r = 8 ∨ r = 12 ∨ r = 16) →
       compute_mult r tgt = some (signApply tgt (maxQfloor (pyRound2
         ((b + (t - b) * minQ1 ((r : ℚ) / (MAX_ROW : ℚ))) * (3/2)))))) ∧
    (∀ r : Nat, checkFactor r = 2 ↔ r = 17) ∧
    (∀ r : Nat, checkFactor r ≠ 3) := by
  refine ⟨?_, ?_, ?_, ?_⟩
  · rw [compute_mult_eq 17 tgt b t h, coreM_seventeen]
  · intro r hr
    rw [compute_mult_eq r tgt b t h, coreM, checkFactor_conv r hr]
  · intro r
    rw [checkFactor]
    split
    · next hr =>
      constructor
      · intro h2; exact absurd h2 (by norm_num)
      · intro h17; omega
    · split
      · next h17 => exact ⟨fun _ => h17, fun _ => rfl⟩
      · next h17 =>
        constructor
        · intro h1; exact absurd h1 (by norm_num)
        · intro hc; exact absurd hc h17
  · intro r
    rw [checkFactor]
    split
    · norm_num
    · split <;> norm_num

theorem C5_witness :
    compute_mult 17 ("allIncome".data) =
      some (signApply ("allIncome".data) (maxQfloor (pyRound2 ((1/100 + (3/100 - 1/100)) * 2)))) :=
  (C5_checkpoint_precedence ("allIncome".data) (1/100) (3/100) (by with_unfolding_all rfl)).1

theorem monoCheck_holds : monoCheck = true := by with_unfolding_all rfl

theorem strictTopCheck_holds : strictTopCheck = true := by with_unfolding_all rfl

/-- C4: curve monotonicity and floor.  For every configured target the
magnitude of `compute_mult` does not decrease from position `p` to `p + 1`
whenever `p` is not one of the checkpoint positions 8, 12, 16, 17; and the
magnitude is never below `0.01`. -/
theorem C4_monotonicity_and_floor :
    (∀ (tgt : List Char) (p : Nat) (q q' : ℚ), p ∉ ([8, 12, 16, 17] : List Nat) →
       compute_mult p tgt = some q → compute_mult (p + 1) tgt = some q' → |q| ≤ |q'|) ∧
    (∀ (tgt : List Char) (p : Nat) (q : ℚ), compute_mult p tgt = some q → 1/100 ≤ |q|) := by
  constructor
  · intro tgt p q q' hp h1 h2
    obtain ⟨b, t, hl, _⟩ := compute_mult_some p tgt q h1
    rw [compute_mult_abs p tgt b t q hl h1, compute_mult_abs (p + 1) tgt b t q' hl h2]
    simp only [List.mem_cons, List.not_mem_nil, or_false] at hp
    push_neg at hp
    obtain ⟨hp8, hp12, hp16, hp17⟩ := hp
    by_cases hlt : p < 17
    · have hmem := lookupCurve_mem tgt (b, t) CURVES hl
      have hall := List.all_eq_true.mp monoCheck_holds _ hmem
      have hpall := List.all_eq_true.mp hall p (List.mem_range.mpr hlt)
      rw [Bool.or_eq_true, Bool.or_eq_true, Bool.or_eq_true] at hpall
      rw [beq_iff_eq, beq_iff_eq, beq_iff_eq] at hpall
      rcases hpall with ((c8 | c12) | c16) | hq
      · exact absurd c8 hp8
      · exact absurd c12 hp12
      · exact absurd c16 hp16
      · exact (qle_iff _ _).mp hq
    · have h18 : 17 < p := by omega
      rw [coreM_beyond b t p h18, coreM_beyond b t (p + 1) (by omega)]
  · intro tgt p q h
    obtain ⟨b, t, hl, _⟩ := compute_mult_some p tgt q h
    rw [compute_mult_abs p tgt b t q hl h]
    exact coreM_ge b t p

theorem C4_witness :
    |((1 : ℚ)/100)| ≤ |((1 : ℚ)/100)| ∧ (1 : ℚ)/100 ≤ |((1 : ℚ)/100)| :=
  ⟨C4_monotonicity_and_floor.1 ("allIncome".data) 3 (1/100) (1/100) (by decide)
     (by with_unfolding_all rfl) (by with_unfolding_all rfl),
   C4_monotonicity_and_floor.2 ("allIncome".data) 3 (1/100) (by with_unfolding_all rfl)⟩

/-- C9: positions strictly beyond the maximum row.  For `p > 17` the
interpolation fraction is clamped to 1 and no checkpoint bonus fires
(`checkFactor p = 1`), so the result is the un-boosted top value, whose
magnitude is strictly below the capstone value at row 17. -/
theorem C9_positions_beyond_max (tgt : List Char) (b t : ℚ)
    (h : lookupCurve tgt CURVES = some (b, t)) (p : Nat) (hp : 17 < p) :
    compute_mult p tgt = some (signApply tgt (maxQfloor (pyRound2 t))) ∧
    checkFactor p = 1 ∧
    (∀ q q17 : ℚ, compute_mult p tgt = some q → compute_mult 17 tgt = some q17 →
      |q| < |q17|) := by
  refine ⟨?_, checkFactor_plain p (by omega) (by omega), ?_⟩
  · rw [compute_mult_eq p tgt b t h, coreM_beyond b t p hp]
  · intro q q17 hq hq17
    rw [compute_mult_abs p tgt b t q h hq, compute_mult_abs 17 tgt b t q17 h hq17,
      coreM_beyond b t p hp]
    have hmem := lookupCurve_mem tgt (b, t) CURVES h
    have hall := List.all_eq_true.mp strictTopCheck_holds _ hmem
    exact (qlt_iff _ _).mp hall

theorem C9_witness :
    compute_mult 18 ("allIncome".data) =
      some (signApply ("allIncome".data) (maxQfloor (pyRound2 (3/100)))) ∧
    |(3 : ℚ)/100| < |(6 : ℚ)/100| :=
  ⟨(C9_positions_beyond_max ("allIncome".data) (1/100) (3/100)
      (by with_unfolding_all rfl) 18 (by omega)).1,
   (C9_positions_beyond_max ("allIncome".data) (1/100) (3/100)
      (by with_unfolding_all rfl) 18 (by omega)).2.2 (3/100) (6/100)
      (by with_unfolding_all rfl) (by with_unfolding_all rfl)⟩

/-! Helper lemmas about the scanning primitives and list operations. -/

theorem stripLit_iff (lit : List Char) : ∀ s r : List Char,
    stripLit lit s = some r ↔ s = lit ++ r := by
  induction lit with
  | nil =>
    intro s r
    simp [stripLit]
  | cons c cs ih =>
    intro s r
    cases s with
    | nil =>
      constructor
      · intro h; exact absurd h (by rw [stripLit]; simp)
      · intro h; exact absurd h (by simp)
    | cons d ds =>
      rw [stripLit]
      by_cases hc : c = d
      · rw [if_pos hc, ih ds r, hc]
        simp
      · rw [if_neg hc]
        constructor
        · intro h; exact absurd h (by simp)
        · intro h
          injection h with h1 _
          exact absurd h1.symm hc

theorem findSome?_congr {α β : Type} (f g : α → Option β) :
    ∀ l : List α, (∀ x ∈ l, f x = g x) → l.findSome? f = l.findSome? g := by
  intro l
  induction l with
  | nil => intro _; rfl
  | cons a t ih =>
    intro h
    rw [List.findSome?_cons, List.findSome?_cons, h a (by simp)]
    cases g a with
    | none => exact ih (fun x hx => h x (by simp [hx]))
    | some b => rfl

theorem mem_rowWindow (i j : Nat) : j ∈ rowWindow i ↔ (i - 7 ≤ j ∧ j < i) := by
  rw [rowWindow, List.mem_reverse, List.mem_range'_1]
  omega

theorem mem_descWindow (i j : Nat) : j ∈ descWindow i ↔ (i - 4 ≤ j ∧ j < i) := by
  rw [descWindow, List.mem_reverse, List.mem_range'_1]
  omega

theorem getD_set_ne (L : List (List Char)) (i m : Nat) (a : List Char) (h : m ≠ i) :
    (L.set i a).getD m [] = L.getD m [] := by
  rw [List.getD_eq_getElem?_getD, List.getD_eq_getElem?_getD,
    List.getElem?_set_ne (fun hc => h hc.symm)]

theorem decideAt_of_rowAt_none (L : List (List Char)) (i : Nat)
    (h : rowAt L i = none) : decideAt L i = none := by
  rw [decideAt]
  cases hocc : occAt L i with
  | none => rfl
  | some tn =>
    obtain ⟨tgt, num⟩ := tn
    rw [h]

theorem stepAt_of_decideAt_none (L : List (List Char)) (i c : Nat)
    (h : decideAt L i = none) : stepAt (L, c) i = (L, c) := by
  rw [stepAt]
  rw [show (L, c).1 = L from rfl, h]

/-- C7: scan-window bound and skip policy.  The backward row search for an
occurrence on line `i` scans exactly the window `i-7 … i-1` (a marker 8 or
more lines back is outside `rowWindow i` and can never be consulted, so the
result depends only on the lines of that window), and when no row marker is
found in the window the iteration is a silent no-op: the lines and the change
count are returned unchanged. -/
theorem C7_scan_window_and_skip :
    (∀ i j : Nat, j ∈ rowWindow i ↔ (i - 7 ≤ j ∧ j < i)) ∧
    (∀ (L L' : List (List Char)) (i : Nat),
       (∀ j, i - 7 ≤ j → j < i → L.getD j [] = L'.getD j []) →
       rowAt L i = rowAt L' i) ∧
    (∀ (L : List (List Char)) (i c : Nat), rowAt L i = none →
       stepAt (L, c) i = (L, c)) := by
  refine ⟨mem_rowWindow, ?_, ?_⟩
  · intro L L' i h
    rw [rowAt, rowAt]
    apply findSome?_congr
    intro j hj
    obtain ⟨h1, h2⟩ := (mem_rowWindow i j).mp hj
    rw [h j h1 h2]
  · intro L i c h
    exact stepAt_of_decideAt_none L i c (decideAt_of_rowAt_none L i h)

theorem C7_witness :
    rowAt decoyDoc 8 = rowAt decoyDocB 8 ∧ stepAt (decoyDoc, 0) 8 = (decoyDoc, 0) :=
  ⟨C7_scan_window_and_skip.2.1 decoyDoc decoyDocB 8
     (by intro j h1 h2; interval_cases j <;> rfl),
   C7_scan_window_and_skip.2.2 decoyDoc 8 0 (by with_unfolding_all rfl)⟩

/-- C2: tolerance-gated rewrite.  For an occurrence with a found row marker
and a configured target, a difference below `0.001` between the computed and
the stored value leaves the whole state unchanged (no rewrite, no count),
while a difference of at least `0.001` performs the rewrite and counts the
occurrence. -/
theorem C2_tolerance_gated_rewrite (L : List (List Char)) (i c : Nat)
    (tgt num : List Char) (row : Nat) (nm : ℚ)
    (hocc : occAt L i = some (tgt, num)) (hrow : rowAt L i = some row)
    (hcm : compute_mult row tgt = some nm) :
    (|nm - parseNum num| < 1/1000 → stepAt (L, c) i = (L, c)) ∧
    (1/1000 ≤ |nm - parseNum num| → stepAt (L, c) i = (applyAt L i nm, c + 1)) := by
  have hd : decideAt L i =
      (if qlt (qabs (nm - parseNum num)) (1/1000) then none else some nm) := by
    simp only [decideAt, hocc, hrow, hcm]
  constructor
  · intro htol
    have hq : qlt (qabs (nm - parseNum num)) (1/1000) = true := by
      rw [qabs_eq, qlt_iff]; exact htol
    apply stepAt_of_decideAt_none
    rw [hd, if_pos hq]
  · intro htol
    have hq : ¬ (qlt (qabs (nm - parseNum num)) (1/1000) = true) := by
      rw [qabs_eq, qlt_iff]; exact not_lt_of_le htol
    rw [stepAt, show (L, c).1 = L from rfl, hd, if_neg hq]

theorem C2_witness :
    stepAt (tolDocA, 0) 1 = (tolDocA, 0) ∧
    stepAt (tolDocB, 0) 1 = (applyAt tolDocB 1 (6/100), 1) :=
  ⟨(C2_tolerance_gated_rewrite tolDocA 1 0 ("allIncome".data) ("0.0591".data) 17 (6/100)
      (by with_unfolding_all rfl) (by with_unfolding_all rfl)
      (by with_unfolding_all rfl)).1
      (by rw [← qabs_eq]; with_unfolding_all rfl),
   (C2_tolerance_gated_rewrite tolDocB 1 0 ("allIncome".data) ("0.0611".data) 17 (6/100)
      (by with_unfolding_all rfl) (by with_unfolding_all rfl)
      (by with_unfolding_all rfl)).2
      (by rw [← qabs_eq]; with_unfolding_all rfl)⟩

theorem length_set_eq (L : List (List Char)) (i : Nat) (a : List Char) :
    (L.set i a).length = L.length := by rw [List.length_set]

theorem getD_default (L : List (List Char)) (m : Nat) (h : L.length ≤ m) :
    L.getD m [] = [] := by
  rw [List.getD_eq_getElem?_getD, List.getElem?_eq_none h]
  rfl

theorem getD_set_self (L : List (List Char)) (i : Nat) (a : List Char)
    (h : i < L.length) : (L.set i a).getD i [] = a := by
  rw [List.getD_eq_getElem?_getD, List.getElem?_set_self h]
  rfl

theorem multRewrite_getD_self (L : List (List Char)) (i : Nat) (nm : ℚ) :
    (multRewrite L i nm).getD i [] = subMultLine (L.getD i []) (fmt2 nm) := by
  rw [multRewrite]
  by_cases h : i < L.length
  · exact getD_set_self L i _ h
  · rw [getD_default _ i (by rw [List.length_set]; omega),
      getD_default L i (by omega)]
    rfl

theorem multRewrite_getD_ne (L : List (List Char)) (i m : Nat) (nm : ℚ) (h : m ≠ i) :
    (multRewrite L i nm).getD m [] = L.getD m [] := getD_set_ne L i m _ h

/-- C10: description-propagation frame.  If the occurrence on line `i` is
skipped for any reason, the whole state — in particular every
`effectDescription` line — is unchanged.  If it is rewritten, line `i` is
replaced by the multiplier substitution, no line after `i` changes, and the
only other line that can change is the nearest `effectDescription` line
found in the window `i-4 … i-1`. -/
theorem C10_desc_propagation_frame :
    (∀ (L : List (List Char)) (i c : Nat), decideAt L i = none →
       stepAt (L, c) i = (L, c)) ∧
    (∀ (L : List (List Char)) (i c : Nat) (nm : ℚ), decideAt L i = some nm →
       stepAt (L, c) i = (applyAt L i nm, c + 1) ∧
       (applyAt L i nm).getD i [] = subMultLine (L.getD i []) (fmt2 nm) ∧
       (∀ m, i < m → (applyAt L i nm).getD m [] = L.getD m []) ∧
       (∀ m, m ≠ i → (applyAt L i nm).getD m [] ≠ L.getD m [] →
          descAt (multRewrite L i nm) i = some m ∧ i - 4 ≤ m ∧ m < i ∧
          containsSub eWord (L.getD m []) = true)) := by
  constructor
  · exact fun L i c h => stepAt_of_decideAt_none L i c h
  · intro L i c nm h
    refine ⟨by rw [stepAt, show (L, c).1 = L from rfl, h], ?_⟩
    rw [applyAt]
    cases hdesc : descAt (multRewrite L i nm) i with
    | none =>
      refine ⟨multRewrite_getD_self L i nm, ?_, ?_⟩
      · intro m hm
        exact multRewrite_getD_ne L i m nm (by omega)
      · intro m hmi hch
        exact absurd (multRewrite_getD_ne L i m nm hmi) hch
    | some j =>
      have hjmem := List.mem_of_find?_eq_some hdesc
      obtain ⟨hj1, hj2⟩ := (mem_descWindow i j).mp hjmem
      have hji : j ≠ i := by omega
      refine ⟨?_, ?_, ?_⟩
      · rw [getD_set_ne _ j i _ (by omega), multRewrite_getD_self L i nm]
      · intro m hm
        rw [getD_set_ne _ j m _ (by omega), multRewrite_getD_ne L i m nm (by omega)]
      · intro m hmi hch
        by_cases hmj : m = j
        · subst hmj
          refine ⟨rfl, hj1, hj2, ?_⟩
          have := List.find?_some hdesc
          rwa [multRewrite_getD_ne L i m nm hji] at this
        · exact absurd (by
            rw [getD_set_ne _ j m _ hmj, multRewrite_getD_ne L i m nm hmi]) hch

theorem C10_witness :
    stepAt (wellDoc, 0) 2 = (applyAt wellDoc 2 (7/100), 1) :=
  (C10_desc_propagation_frame.2 wellDoc 2 0 (7/100) (by with_unfolding_all rfl)).1

theorem mem_takeWhile_digit (c : Char) : ∀ l : List Char,
    c ∈ l.takeWhile Char.isDigit → c.isDigit = true := by
  intro l
  induction l with
  | nil => intro h; exact absurd h (by simp)
  | cons d t ih =>
    intro h
    rw [List.takeWhile_cons] at h
    by_cases hd : d.isDigit = true
    · rw [if_pos hd] at h
      rcases List.mem_cons.mp h with h1 | h2
      · rwa [h1]
      · exact ih h2
    · rw [if_neg hd] at h
      exact absurd h (by simp)

theorem mem_takeWhile_space (c : Char) : ∀ l : List Char,
    c ∈ l.takeWhile pySpace → pySpace c = true := by
  intro l
  induction l with
  | nil => intro h; exact absurd h (by simp)
  | cons d t ih =>
    intro h
    rw [List.takeWhile_cons] at h
    by_cases hd : pySpace d = true
    · rw [if_pos hd] at h
      rcases List.mem_cons.mp h with h1 | h2
      · rwa [h1]
      · exact ih h2
    · rw [if_neg hd] at h
      exact absurd h (by simp)

theorem digits1_decomp (s ds r : List Char) (h : digits1 s = some (ds, r)) :
    s = ds ++ r ∧ ds ≠ [] ∧ (∀ c ∈ ds, c.isDigit = true) := by
  rw [digits1] at h
  cases htw : s.takeWhile Char.isDigit with
  | nil => rw [htw] at h; exact absurd h (by simp)
  | cons d t =>
    rw [htw] at h
    injection h with h
    injection h with h1 h2
    refine ⟨?_, by rw [← h1]; simp, ?_⟩
    · rw [← h1, ← h2, ← htw, List.takeWhile_append_dropWhile]
    · intro c hc
      rw [← h1, ← htw] at hc
      exact mem_takeWhile_digit c s hc

theorem numTokU_decomp (s n r : List Char) (h : numTokU s = some (n, r)) :
    s = n ++ r := by
  rw [numTokU] at h
  cases hd : digits1 s with
  | none => rw [hd] at h; exact absurd h (by simp)
  | some p =>
    obtain ⟨ds, r1⟩ := p
    rw [hd] at h
    dsimp only at h
    obtain ⟨hs, _, _⟩ := digits1_decomp s ds r1 hd
    split at h
    · next r2 =>
      injection h with h
      injection h with h1 h2
      rw [hs, ← h1, ← h2]
      simp only [List.append_assoc, List.cons_append, List.append_cancel_left_eq]
      rw [List.takeWhile_append_dropWhile]
    · injection h with h
      injection h with h1 h2
      rw [hs, ← h1, ← h2]

theorem numTok_decomp (s n r : List Char) (h : numTok s = some (n, r)) :
    s = n ++ r := by
  rw [numTok] at h
  by_cases hh : s.head? = some '-'
  · rw [if_pos hh] at h
    cases hu : numTokU s.tail with
    | none => rw [hu] at h; exact absurd h (by simp)
    | some p =>
      obtain ⟨n1, r1⟩ := p
      rw [hu] at h
      injection h with h
      injection h with h1 h2
      have hcons : s = '-' :: s.tail := by
        cases s with
        | nil => exact absurd hh (by simp)
        | cons c t =>
          rw [List.head?_cons] at hh
          injection hh with hh
          rw [hh]
          rfl
      rw [hcons, ← h1, ← h2, List.cons_append, ← numTokU_decomp s.tail n1 r1 hu]
  · rw [if_neg hh] at h
    exact numTokU_decomp s n r h

theorem tryMultAt_decomp (s g1 num rest : List Char)
    (h : tryMultAt s = some (g1, num, rest)) :
    ∃ sp, g1 = mLit ++ sp ∧ (∀ c ∈ sp, pySpace c = true) ∧
      s = mLit ++ (sp ++ (num ++ rest)) ∧
      numTok (num ++ rest) = some (num, rest) := by
  rw [tryMultAt] at h
  cases hstrip : stripLit mLit s with
  | none => rw [hstrip] at h; exact absurd h (by simp)
  | some r1 =>
    rw [hstrip] at h
    dsimp only at h
    cases hnum : numTok (r1.dropWhile pySpace) with
    | none => rw [hnum] at h; exact absurd h (by simp)
    | some p =>
      obtain ⟨n1, r2⟩ := p
      rw [hnum] at h
      dsimp only at h
      injection h with h
      injection h with h1 h
      injection h with h2 h3
      refine ⟨r1.takeWhile pySpace, h1.symm, ?_, ?_, ?_⟩
      · intro c hc; exact mem_takeWhile_space c r1 hc
      · rw [(stripLit_iff mLit s r1).mp hstrip, ← h2, ← h3,
          ← numTok_decomp _ n1 r2 hnum, List.takeWhile_append_dropWhile]
      · rw [← h2, ← h3, ← numTok_decomp _ n1 r2 hnum]
        exact hnum

theorem subMultLine_cases : ∀ l r : List Char,
    subMultLine l r = l ∨
    ∃ A sp num B, (∀ c ∈ sp, pySpace c = true) ∧
      l = A ++ (mLit ++ (sp ++ (num ++ B))) ∧
      subMultLine l r = A ++ (mLit ++ (sp ++ (r ++ B))) ∧
      numTok (num ++ B) = some (num, B) := by
  intro l r
  induction l with
  | nil => left; rfl
  | cons c t ih =>
    rw [subMultLine]
    cases htry : tryMultAt (c :: t) with
    | some g =>
      obtain ⟨g1, num, rest⟩ := g
      right
      obtain ⟨sp, hg1, hsp, hs, hnum⟩ := tryMultAt_decomp (c :: t) g1 num rest htry
      refine ⟨[], sp, num, rest, hsp, by rw [List.nil_append]; exact hs, ?_, hnum⟩
      rw [List.nil_append, hg1]
      simp [List.append_assoc]
    | none =>
      rcases ih with h | ⟨A, sp, num, B, hsp, hl, hsub, hnum⟩
      · left; rw [h]
      · right
        refine ⟨c :: A, sp, num, B, hsp, ?_, ?_, hnum⟩
        · rw [List.cons_append, ← hl]
        · rw [List.cons_append, ← hsub]

theorem digitChar_isDigit (n : Nat) : (digitChar n).isDigit = true := by
  rw [digitChar]
  have h : n % 10 < 10 := Nat.mod_lt _ (by norm_num)
  set k := n % 10 with hk
  interval_cases k <;> decide

theorem natToChars_ne_nil (n : Nat) : natToChars n ≠ [] := by
  rw [natToChars]
  split
  · simp
  · simp

theorem natToChars_digits (n : Nat) : ∀ c ∈ natToChars n, c.isDigit = true := by
  induction n using Nat.strong_induction_on with
  | _ n ih =>
    rw [natToChars]
    split
    · intro c hc
      rw [List.mem_singleton.mp hc]
      exact digitChar_isDigit n
    · next hn =>
      intro c hc
      rcases List.mem_append.mp hc with h1 | h2
      · exact ih (n / 10) (Nat.div_lt_self (by omega) (by omega)) c h1
      · rw [List.mem_singleton.mp h2]
        exact digitChar_isDigit (n % 10)

theorem fmt2_shape (q : ℚ) :
    ∃ sgn ip d1 d2, fmt2 q = sgn ++ (ip ++ ['.', d1, d2]) ∧
      (sgn = [] ∨ sgn = ['-']) ∧ ip ≠ [] ∧ (∀ c ∈ ip, c.isDigit = true) ∧
      d1.isDigit = true ∧ d2.isDigit = true := by
  refine ⟨(if roundHalfEven (q * 100) < 0 then ['-'] else []),
    natToChars ((roundHalfEven (q * 100)).natAbs / 100),
    digitChar ((roundHalfEven (q * 100)).natAbs / 10 % 10),
    digitChar ((roundHalfEven (q * 100)).natAbs % 10), ?_, ?_,
    natToChars_ne_nil _, natToChars_digits _, digitChar_isDigit _, digitChar_isDigit _⟩
  · rw [fmt2]
    simp [List.append_assoc]
  · split
    · right; rfl
    · left; rfl

theorem applyAt_length (L : List (List Char)) (i : Nat) (nm : ℚ) :
    (applyAt L i nm).length = L.length := by
  rw [applyAt]
  cases hdesc : descAt (multRewrite L i nm) i with
  | none => rw [multRewrite, List.length_set]
  | some j => rw [List.length_set, multRewrite, List.length_set]

theorem stepAt_length (st : List (List Char) × Nat) (i : Nat) :
    (stepAt st i).1.length = st.1.length := by
  rw [stepAt]
  cases h : decideAt st.1 i with
  | none => rfl
  | some nm => exact applyAt_length st.1 i nm

theorem foldl_stepAt_length (is : List Nat) :
    ∀ st : List (List Char) × Nat, ((is.foldl stepAt st).1.length = st.1.length) := by
  induction is with
  | nil => intro st; rfl
  | cons a t ih =>
    intro st
    rw [List.foldl_cons, ih (stepAt st a), stepAt_length]

theorem decShape_sound (s : List Char) (h : decShape s = true) :
    ∃ ip ds, s = ip ++ '.' :: ds ∧ (∀ c ∈ ds, c.isDigit = true) ∧
      1 ≤ ds.length ∧ ds.length ≤ 4 ∧ (ds = ['0'] ∨ ds.getLast? ≠ some '0') := by
  simp only [decShape, Bool.and_eq_true] at h
  obtain ⟨⟨⟨hdot, h1⟩, h2⟩, h3⟩ := h
  cases hrest : s.reverse.dropWhile Char.isDigit with
  | nil => rw [hrest] at hdot; exact absurd hdot (by simp)
  | cons c t =>
    rw [hrest] at hdot
    rw [List.head?_cons] at hdot
    have hc : c = '.' := by
      have := beq_iff_eq.mp hdot
      injection this
    subst hc
    refine ⟨t.reverse, (s.reverse.takeWhile Char.isDigit).reverse, ?_, ?_, ?_, ?_, ?_⟩
    · have hs : s.reverse = s.reverse.takeWhile Char.isDigit ++ ('.' :: t) := by
        rw [← hrest, List.takeWhile_append_dropWhile]
      have := congrArg List.reverse hs
      rw [List.reverse_reverse, List.reverse_append, List.reverse_cons] at this
      nth_rewrite 1 [this]
      simp [List.append_assoc]
    · intro d hd
      rw [List.mem_reverse] at hd
      exact mem_takeWhile_digit d s.reverse hd
    · exact of_decide_eq_true h1
    · exact of_decide_eq_true h2
    · rw [Bool.or_eq_true] at h3
      rcases h3 with h3 | h3
      · left; exact of_decide_eq_true h3
      · right
        rw [Bool.not_eq_true'] at h3
        exact of_decide_eq_false h3

theorem msCheck_holds : msCheck = true := by with_unfolding_all rfl

/-- C8: rewrite locality and formatting.  The patcher returns a line list of
the same length as its input; the multiplier substitution either leaves a
line unchanged or replaces exactly the numeric token following a
`multiplier:` literal (and its spaces), preserving all surrounding text;
`fmt2` always renders an optional sign, at least one integer digit, a dot
and exactly two decimal digits; and every milestone table value is written
with 1–4 decimal digits, trailing zeros trimmed, at least one decimal digit
retained. -/
theorem C8_rewrite_locality_and_formatting :
    (∀ lines : List (List Char), (process_skill_file lines).1.length = lines.length) ∧
    (∀ l r : List Char, subMultLine l r = l ∨
       ∃ A sp num B, (∀ c ∈ sp, pySpace c = true) ∧
         l = A ++ (mLit ++ (sp ++ (num ++ B))) ∧
         subMultLine l r = A ++ (mLit ++ (sp ++ (r ++ B))) ∧
         numTok (num ++ B) = some (num, B)) ∧
    (∀ q : ℚ, ∃ sgn ip d1 d2, fmt2 q = sgn ++ (ip ++ ['.', d1, d2]) ∧
       (sgn = [] ∨ sgn = ['-']) ∧ ip ≠ [] ∧ (∀ c ∈ ip, c.isDigit = true) ∧
       d1.isDigit = true ∧ d2.isDigit = true) ∧
    (∀ p ∈ MILESTONE_REWARDS, ∃ ip ds, msFmt p.2 = ip ++ '.' :: ds ∧
       (∀ c ∈ ds, c.isDigit = true) ∧ 1 ≤ ds.length ∧ ds.length ≤ 4 ∧
       (ds = ['0'] ∨ ds.getLast? ≠ some '0')) := by
  refine ⟨?_, subMultLine_cases, fmt2_shape, ?_⟩
  · intro lines
    exact foldl_stepAt_length _ _
  · intro p hp
    exact decShape_sound _ (List.all_eq_true.mp msCheck_holds p hp)

theorem C8_witness :
    ∃ ip ds, msFmt ((8 : ℚ)/1000) = ip ++ '.' :: ds ∧
      (∀ c ∈ ds, c.isDigit = true) ∧ 1 ≤ ds.length ∧ ds.length ≤ 4 ∧
      (ds = ['0'] ∨ ds.getLast? ≠ some '0') :=
  C8_rewrite_locality_and_formatting.2.2.2
    (("ms_points_10".data, "global_multiplier".data), (8 : ℚ)/1000)
    (List.mem_cons_self _ _)

/-! Infrastructure for the idempotence analysis: literal facts, boundary
lemmas for the scanning primitives, and skip-walk lemmas. -/

theorem ne_of_bool (f : Char → Bool) (a b : Char) (ha : f a = true) (hb : f b = false) :
    a ≠ b := by
  intro he
  rw [he, hb] at ha
  cases ha

theorem tLit_exp : tLit = 't' :: 'a' :: 'r' :: 'g' :: 'e' :: 't' :: ':' :: [] := by decide

theorem rLit_exp : rLit = 'r' :: 'o' :: 'w' :: ':' :: [] := by decide

theorem mLit_exp : mLit =
    'm' :: 'u' :: 'l' :: 't' :: 'i' :: 'p' :: 'l' :: 'i' :: 'e' :: 'r' :: ':' :: [] := by
  decide

theorem eLit_exp : eLit =
    'e' :: 'f' :: 'f' :: 'e' :: 'c' :: 't' :: 'D' :: 'e' :: 's' :: 'c' :: 'r' :: 'i' ::
    'p' :: 't' :: 'i' :: 'o' :: 'n' :: ':' :: [] := by decide

theorem stripLit_none (lit s : List Char) (h : ∀ r, s ≠ lit ++ r) :
    stripLit lit s = none := by
  cases hs : stripLit lit s with
  | none => rfl
  | some r => exact absurd ((stripLit_iff lit s r).mp hs) (h r)

theorem tw_app (p : Char → Bool) : ∀ x y : List Char,
    (x ++ y).takeWhile p =
      if x.dropWhile p = [] then x ++ y.takeWhile p else x.takeWhile p := by
  intro x y
  induction x with
  | nil => simp
  | cons c t ih =>
    simp only [List.cons_append, List.takeWhile_cons, List.dropWhile_cons]
    by_cases hc : p c = true
    · simp only [hc, if_true, ih]
      by_cases hd : t.dropWhile p = []
      · simp [hd]
      · simp [hd]
    · simp [hc]

theorem dw_app (p : Char → Bool) : ∀ x y : List Char,
    (x ++ y).dropWhile p =
      if x.dropWhile p = [] then y.dropWhile p else x.dropWhile p ++ y := by
  intro x y
  induction x with
  | nil => simp
  | cons c t ih =>
    simp only [List.cons_append, List.dropWhile_cons]
    by_cases hc : p c = true
    · simp only [hc, if_true, ih]
    · simp [hc]

theorem stripLit_cross (lit : List Char) : ∀ x : List Char,
    (∃ x1, x = lit ++ x1 ∧ ∀ z, stripLit lit (x ++ z) = some (x1 ++ z)) ∨
    (∃ lit1, lit = x ++ lit1 ∧ lit1 ≠ [] ∧ ∀ z, stripLit lit (x ++ z) = stripLit lit1 z) ∨
    (∀ z, stripLit lit (x ++ z) = none) := by
  induction lit with
  | nil =>
    intro x
    left
    exact ⟨x, rfl, fun z => rfl⟩
  | cons c cs ih =>
    intro x
    cases x with
    | nil =>
      right; left
      exact ⟨c :: cs, rfl, by simp, fun z => rfl⟩
    | cons d ds =>
      by_cases hc : c = d
      · subst hc
        rcases ih ds with ⟨x1, hx1, hs⟩ | ⟨lit1, hl1, hne, hs⟩ | hn
        · left
          refine ⟨x1, by simp [hx1], ?_⟩
          intro z
          rw [List.cons_append, stripLit, if_pos rfl]
          exact hs z
        · right; left
          refine ⟨lit1, by simp [hl1], hne, ?_⟩
          intro z
          rw [List.cons_append, stripLit, if_pos rfl]
          exact hs z
        · right; right
          intro z
          rw [List.cons_append, stripLit, if_pos rfl]
          exact hn z
      · right; right
        intro z
        rw [List.cons_append, stripLit, if_neg hc]

theorem searchTM_cons_none (c : Char) (t : List Char) (h : tryTMAt (c :: t) = none) :
    searchTM (c :: t) = searchTM t := by
  rw [searchTM, h]

theorem lazyMult_cons_none (c : Char) (t : List Char) (h : tryMultAt (c :: t) = none)
    (hn : c ≠ '\n') : lazyMult (c :: t) = lazyMult t := by
  rw [lazyMult, h, if_neg hn]

theorem lazyMult_nl (t : List Char) (h : tryMultAt ('\n' :: t) = none) :
    lazyMult ('\n' :: t) = none := by
  rw [lazyMult, h, if_pos rfl]

theorem searchRowGo_step (pw : Bool) (c : Char) (t : List Char)
    (h : pw = true ∨ tryRowAt (c :: t) = none) :
    searchRowGo pw (c :: t) = searchRowGo (wordChar c) t := by
  rcases h with h | h
  · rw [h, searchRowGo]
    rfl
  · rw [searchRowGo, h]
    cases pw <;> rfl

theorem tryTM_none1 (c : Char) (s : List Char) (h : c ≠ 't') : tryTMAt (c :: s) = none := by
  rw [tryTMAt, stripLit_none]
  intro r he
  rw [tLit_exp] at he
  injection he with he1 _
  exact h he1

theorem tryTM_none2 (c : Char) (s : List Char) (h : c ≠ 'a') :
    tryTMAt ('t' :: c :: s) = none := by
  rw [tryTMAt, stripLit_none]
  intro r he
  rw [tLit_exp] at he
  injection he with _ he
  injection he with he2 _
  exact h he2

theorem tryMult_none1 (c : Char) (s : List Char) (h : c ≠ 'm') :
    tryMultAt (c :: s) = none := by
  rw [tryMultAt, stripLit_none]
  intro r he
  rw [mLit_exp] at he
  injection he with he1 _
  exact h he1

theorem tryRow_none1 (c : Char) (s : List Char) (h : c ≠ 'r') : tryRowAt (c :: s) = none := by
  rw [tryRowAt, stripLit_none]
  intro r he
  rw [rLit_exp] at he
  injection he with he1 _
  exact h he1

theorem tryRow_none2 (c : Char) (s : List Char) (h : c ≠ 'o') :
    tryRowAt ('r' :: c :: s) = none := by
  rw [tryRowAt, stripLit_none]
  intro r he
  rw [rLit_exp] at he
  injection he with _ he
  injection he with he2 _
  exact h he2

theorem searchTM_skip : ∀ w z : List Char, (∀ c ∈ w, c ≠ 't') →
    searchTM (w ++ z) = searchTM z := by
  intro w z
  induction w with
  | nil => intro _; rfl
  | cons c t ih =>
    intro h
    rw [List.cons_append,
      searchTM_cons_none c (t ++ z) (tryTM_none1 c (t ++ z) (h c (by simp)))]
    exact ih (fun d hd => h d (by simp [hd]))

theorem lazyMult_skip : ∀ w z : List Char, (∀ c ∈ w, c ≠ 'm' ∧ c ≠ '\n') →
    lazyMult (w ++ z) = lazyMult z := by
  intro w z
  induction w with
  | nil => intro _; rfl
  | cons c t ih =>
    intro h
    rw [List.cons_append,
      lazyMult_cons_none c (t ++ z) (tryMult_none1 c (t ++ z) (h c (by simp)).1)
        (h c (by simp)).2]
    exact ih (fun d hd => h d (by simp [hd]))

theorem searchRowGo_skip : ∀ w : List Char, (∀ c ∈ w, c ≠ 'r') →
    ∀ (pw : Bool) (z : List Char),
      searchRowGo pw (w ++ z) = searchRowGo (w.foldl (fun _ c => wordChar c) pw) z := by
  intro w
  induction w with
  | nil => intro _ pw z; rfl
  | cons c t ih =>
    intro h pw z
    rw [List.cons_append,
      searchRowGo_step pw c (t ++ z) (Or.inr (tryRow_none1 c (t ++ z) (h c (by simp)))),
      List.foldl_cons]
    exact ih (fun d hd => h d (by simp [hd])) (wordChar c) z

theorem overlap_absurd (a b : List Char) (n : Nat) (hof : overlapFreeTo a b n = true)
    (y lit1 x1 : List Char) (hy : a = y ++ lit1) (hx : b = lit1 ++ x1)
    (hne : lit1 ≠ []) (hlen : lit1.length ≤ n) : False := by
  have hk1 : 1 ≤ lit1.length := by
    cases lit1 with
    | nil => exact absurd rfl hne
    | cons c t => simp
  have hmem : lit1.length - 1 ∈ List.range n := List.mem_range.mpr (by omega)
  have hall := List.all_eq_true.mp hof _ hmem
  rw [Bool.not_eq_true', decide_eq_false_iff_not] at hall
  apply hall
  have h1 : a.drop (a.length - lit1.length) = lit1 := by
    rw [hy, List.length_append,
      show y.length + lit1.length - lit1.length = y.length from by omega, List.drop_left]
  have h2 : b.take lit1.length = lit1 := by rw [hx, List.take_left]
  rw [show lit1.length - 1 + 1 = lit1.length from by omega, h1, h2]

theorem pySpace_cases (c : Char) (h : pySpace c = true) :
    c = ' ' ∨ c = '\t' ∨ c = '\n' ∨ c = '\r' ∨ c = '\x0b' ∨ c = '\x0c' := by
  simp only [pySpace, Bool.or_eq_true, decide_eq_true_eq] at h
  tauto

theorem pySpace_not_word (c : Char) (h : pySpace c = true) : wordChar c = false := by
  rcases pySpace_cases c h with h | h | h | h | h | h <;> subst h <;> decide

theorem pySpace_ne (c x : Char) (h : pySpace c = true) (hx : pySpace x = false) : c ≠ x :=
  ne_of_bool pySpace c x h hx

theorem digit_ne (c x : Char) (h : c.isDigit = true) (hx : x.isDigit = false) : c ≠ x :=
  ne_of_bool Char.isDigit c x h hx

theorem region_mem (R : List Char) (h : RegionShape R) :
    ∀ c ∈ R, c = '+' ∨ c = '-' ∨ c.isDigit = true ∨ c = '.' ∨ c = '%' := by
  obtain ⟨s0, mid, hR, hs0, hmid⟩ := h
  intro c hc
  rw [hR] at hc
  rcases List.mem_cons.mp hc with h1 | h2
  · subst h1
    rcases hs0 with h | h
    · left; exact h
    · right; left; exact h
  · rcases List.mem_append.mp h2 with h3 | h4
    · rcases hmid c h3 with h | h
      · right; right; left; exact h
      · right; right; right; left; exact h
    · right; right; right; right
      exact List.mem_singleton.mp h4

theorem region_ne_t (R : List Char) (h : RegionShape R) : ∀ c ∈ R, c ≠ 't' := by
  intro c hc
  rcases region_mem R h c hc with h1 | h1 | h1 | h1 | h1
  · subst h1; decide
  · subst h1; decide
  · exact digit_ne c 't' h1 (by decide)
  · subst h1; decide
  · subst h1; decide

theorem region_ne_m_nl (R : List Char) (h : RegionShape R) :
    ∀ c ∈ R, c ≠ 'm' ∧ c ≠ '\n' := by
  intro c hc
  rcases region_mem R h c hc with h1 | h1 | h1 | h1 | h1
  · subst h1; exact ⟨by decide, by decide⟩
  · subst h1; exact ⟨by decide, by decide⟩
  · exact ⟨digit_ne c 'm' h1 (by decide), digit_ne c '\n' h1 (by decide)⟩
  · subst h1; exact ⟨by decide, by decide⟩
  · subst h1; exact ⟨by decide, by decide⟩

theorem region_ne_r (R : List Char) (h : RegionShape R) : ∀ c ∈ R, c ≠ 'r' := by
  intro c hc
  rcases region_mem R h c hc with h1 | h1 | h1 | h1 | h1
  · subst h1; decide
  · subst h1; decide
  · exact digit_ne c 'r' h1 (by decide)
  · subst h1; decide
  · subst h1; decide

theorem region_foldl (R : List Char) (h : RegionShape R) (pw : Bool) :
    R.foldl (fun _ c => wordChar c) pw = false := by
  obtain ⟨s0, mid, hR, _, _⟩ := h
  rw [hR, List.foldl_cons, List.foldl_append]
  rfl

theorem foldl_space (sp : List Char) (hsp : ∀ c ∈ sp, pySpace c = true) :
    sp.foldl (fun _ c => wordChar c) false = false := by
  induction sp with
  | nil => rfl
  | cons c t ih =>
    rw [List.foldl_cons, pySpace_not_word c (hsp c (by simp))]
    exact ih (fun d hd => hsp d (by simp [hd]))

theorem searchTM_eLit (z : List Char) : searchTM (eLit ++ z) = searchTM z := by
  rw [eLit_exp]
  show searchTM ('e' :: 'f' :: 'f' :: 'e' :: 'c' :: 't' :: 'D' :: 'e' :: 's' :: 'c' ::
    'r' :: 'i' :: 'p' :: 't' :: 'i' :: 'o' :: 'n' :: ':' :: z) = searchTM z
  rw [searchTM_cons_none _ _ (tryTM_none1 _ _ (by decide)),
    searchTM_cons_none _ _ (tryTM_none1 _ _ (by decide)),
    searchTM_cons_none _ _ (tryTM_none1 _ _ (by decide)),
    searchTM_cons_none _ _ (tryTM_none1 _ _ (by decide)),
    searchTM_cons_none _ _ (tryTM_none1 _ _ (by decide)),
    searchTM_cons_none _ _ (tryTM_none2 _ _ (by decide)),
    searchTM_cons_none _ _ (tryTM_none1 _ _ (by decide)),
    searchTM_cons_none _ _ (tryTM_none1 _ _ (by decide)),
    searchTM_cons_none _ _ (tryTM_none1 _ _ (by decide)),
    searchTM_cons_none _ _ (tryTM_none1 _ _ (by decide)),
    searchTM_cons_none _ _ (tryTM_none1 _ _ (by decide)),
    searchTM_cons_none _ _ (tryTM_none1 _ _ (by decide)),
    searchTM_cons_none _ _ (tryTM_none1 _ _ (by decide)),
    searchTM_cons_none _ _ (tryTM_none2 _ _ (by decide)),
    searchTM_cons_none _ _ (tryTM_none1 _ _ (by decide)),
    searchTM_cons_none _ _ (tryTM_none1 _ _ (by decide)),
    searchTM_cons_none _ _ (tryTM_none1 _ _ (by decide)),
    searchTM_cons_none _ _ (tryTM_none1 _ _ (by decide))]

theorem searchRow_eLit (pw : Bool) (z : List Char) :
    searchRowGo pw (eLit ++ z) = searchRowGo false z := by
  rw [eLit_exp]
  show searchRowGo pw ('e' :: 'f' :: 'f' :: 'e' :: 'c' :: 't' :: 'D' :: 'e' :: 's' :: 'c' ::
    'r' :: 'i' :: 'p' :: 't' :: 'i' :: 'o' :: 'n' :: ':' :: z) = searchRowGo false z
  rw [searchRowGo_step _ _ _ (Or.inr (tryRow_none1 _ _ (by decide))),
    searchRowGo_step _ _ _ (Or.inr (tryRow_none1 _ _ (by decide))),
    searchRowGo_step _ _ _ (Or.inr (tryRow_none1 _ _ (by decide))),
    searchRowGo_step _ _ _ (Or.inr (tryRow_none1 _ _ (by decide))),
    searchRowGo_step _ _ _ (Or.inr (tryRow_none1 _ _ (by decide))),
    searchRowGo_step _ _ _ (Or.inr (tryRow_none1 _ _ (by decide))),
    searchRowGo_step _ _ _ (Or.inr (tryRow_none1 _ _ (by decide))),
    searchRowGo_step _ _ _ (Or.inr (tryRow_none1 _ _ (by decide))),
    searchRowGo_step _ _ _ (Or.inr (tryRow_none1 _ _ (by decide))),
    searchRowGo_step _ _ _ (Or.inr (tryRow_none1 _ _ (by decide))),
    searchRowGo_step _ _ _ (Or.inr (tryRow_none2 _ _ (by decide))),
    searchRowGo_step _ _ _ (Or.inr (tryRow_none1 _ _ (by decide))),
    searchRowGo_step _ _ _ (Or.inr (tryRow_none1 _ _ (by decide))),
    searchRowGo_step _ _ _ (Or.inr (tryRow_none1 _ _ (by decide))),
    searchRowGo_step _ _ _ (Or.inr (tryRow_none1 _ _ (by decide))),
    searchRowGo_step _ _ _ (Or.inr (tryRow_none1 _ _ (by decide))),
    searchRowGo_step _ _ _ (Or.inr (tryRow_none1 _ _ (by decide))),
    searchRowGo_step _ _ _ (Or.inr (tryRow_none1 _ _ (by decide)))]
  rfl

theorem takeWhile_nil_of_head (p : Char → Bool) (z : List Char)
    (h : ∀ c, z.head? = some c → p c = false) : z.takeWhile p = [] := by
  cases z with
  | nil => rfl
  | cons c t =>
    rw [List.takeWhile_cons, if_neg (by rw [h c (by rw [List.head?_cons])]; simp)]

theorem dropWhile_self_of_head (p : Char → Bool) (z : List Char)
    (h : ∀ c, z.head? = some c → p c = false) : z.dropWhile p = z := by
  cases z with
  | nil => rfl
  | cons c t =>
    rw [List.dropWhile_cons, if_neg (by rw [h c (by rw [List.head?_cons])]; simp)]

theorem takeWhile_eq_self_of_drop (p : Char → Bool) (x : List Char)
    (h : x.dropWhile p = []) : x.takeWhile p = x := by
  have := List.takeWhile_append_dropWhile (p := p) (l := x)
  rw [h, List.append_nil] at this
  exact this

theorem tw_app_stop (p : Char → Bool) (x z : List Char)
    (h : ∀ c, z.head? = some c → p c = false) :
    (x ++ z).takeWhile p = x.takeWhile p := by
  rw [tw_app]
  by_cases hd : x.dropWhile p = []
  · rw [if_pos hd, takeWhile_nil_of_head p z h, List.append_nil,
      takeWhile_eq_self_of_drop p x hd]
  · rw [if_neg hd]

theorem dw_app_stop (p : Char → Bool) (x z : List Char)
    (h : ∀ c, z.head? = some c → p c = false) :
    (x ++ z).dropWhile p = x.dropWhile p ++ z := by
  rw [dw_app]
  by_cases hd : x.dropWhile p = []
  · rw [if_pos hd, hd, List.nil_append, dropWhile_self_of_head p z h]
  · rw [if_neg hd]

theorem numTokU_app_stop (x z : List Char)
    (hz : ∀ c, z.head? = some c → c.isDigit = false ∧ c ≠ '.') :
    numTokU (x ++ z) = (numTokU x).map (fun p => (p.1, p.2 ++ z)) := by
  have hzd : ∀ c, z.head? = some c → Char.isDigit c = false := fun c hc => (hz c hc).1
  cases hd : digits1 x with
  | none =>
    have h0 : x.takeWhile Char.isDigit = [] := by
      rw [digits1] at hd
      cases hx : x.takeWhile Char.isDigit with
      | nil => rfl
      | cons d t => rw [hx] at hd; exact absurd hd (by simp)
    have h1 : digits1 (x ++ z) = none := by
      rw [digits1, tw_app_stop _ _ _ hzd, h0]
    rw [numTokU, h1, numTokU, hd]
    rfl
  | some p =>
    obtain ⟨ds, r⟩ := p
    obtain ⟨hxdr, hdsne, _⟩ := digits1_decomp x ds r hd
    have h1 : digits1 (x ++ z) = some (ds, r ++ z) := by
      have hds : x.takeWhile Char.isDigit = ds ∧ x.dropWhile Char.isDigit = r := by
        rw [digits1] at hd
        cases hx : x.takeWhile Char.isDigit with
        | nil => rw [hx] at hd; exact absurd hd (by simp)
        | cons d t =>
          rw [hx] at hd
          injection hd with hd
          injection hd with hd1 hd2
          exact ⟨hd1, hd2⟩
      rw [digits1, tw_app_stop _ _ _ hzd, dw_app_stop _ _ _ hzd, hds.1, hds.2]
      cases hds2 : ds with
      | nil => exact absurd hds2 hdsne
      | cons d t => rfl
    rw [numTokU, h1, numTokU, hd]
    dsimp only
    split
    · next r2 heq =>
      cases r with
      | nil =>
        exfalso
        rw [List.nil_append] at heq
        exact (hz '.' (by rw [heq]; rfl)).2 rfl
      | cons c rt =>
        rw [List.cons_append] at heq
        injection heq with heq1 heq2
        subst heq1
        split
        · next r3 heq3 =>
          injection heq3 with _ heq4
          subst heq4
          rw [← heq2, tw_app_stop _ _ _ hzd, dw_app_stop _ _ _ hzd]
          rfl
        · next hne =>
          exact absurd rfl (hne rt)
    · next hne1 =>
      split
      · next r3 =>
        exact absurd (List.cons_append '.' r3 z) (hne1 (r3 ++ z))
      · rfl

theorem numTok_app_stop (w z : List Char)
    (hz : ∀ c, z.head? = some c → c.isDigit = false ∧ c ≠ '.' ∧ c ≠ '-') :
    numTok (w ++ z) = (numTok w).map (fun p => (p.1, p.2 ++ z)) := by
  have hzu : ∀ c, z.head? = some c → c.isDigit = false ∧ c ≠ '.' :=
    fun c hc => ⟨(hz c hc).1, (hz c hc).2.1⟩
  cases w with
  | nil =>
    rw [List.nil_append, numTok, numTok]
    have hzn : ¬ z.head? = some '-' := by
      intro hc
      exact (hz '-' hc).2.2 rfl
    rw [if_neg hzn, if_neg (by simp)]
    have h0 : numTokU z = none := by
      rw [numTokU]
      have hd : digits1 z = none := by
        rw [digits1, takeWhile_nil_of_head _ _ (fun c hc => (hz c hc).1)]
      rw [hd]
    rw [h0]
    rfl
  | cons c w1 =>
    rw [List.cons_append, numTok, numTok, List.head?_cons, List.head?_cons]
    by_cases hc : c = '-'
    · rw [if_pos (by rw [hc]), if_pos (by rw [hc])]
      rw [show (c :: (w1 ++ z)).tail = w1 ++ z from rfl, show (c :: w1).tail = w1 from rfl,
        numTokU_app_stop w1 z hzu]
      cases numTokU w1 with
      | none => rfl
      | some p => rfl
    · rw [if_neg (by simp [hc]), if_neg (by simp [hc])]
      exact numTokU_app_stop (c :: w1) z hzu

theorem takeWhile_all (p : Char → Bool) : ∀ l : List Char,
    (∀ c ∈ l, p c = true) → l.takeWhile p = l := by
  intro l
  induction l with
  | nil => intro _; rfl
  | cons c t ih =>
    intro h
    rw [List.takeWhile_cons, if_pos (by rw [h c (by simp)])]
    rw [ih (fun d hd => h d (by simp [hd]))]

theorem dropWhile_nil_all (p : Char → Bool) : ∀ l : List Char,
    (∀ c ∈ l, p c = true) → l.dropWhile p = [] := by
  intro l
  induction l with
  | nil => intro _; rfl
  | cons c t ih =>
    intro h
    rw [List.dropWhile_cons, if_pos (by rw [h c (by simp)])]
    exact ih (fun d hd => h d (by simp [hd]))

theorem stripLit_self_app : ∀ lit z : List Char, stripLit lit (lit ++ z) = some z := by
  intro lit z
  induction lit with
  | nil => rfl
  | cons c t ih => rw [List.cons_append, stripLit, if_pos rfl, ih]

theorem head_dropWhile_false (p : Char → Bool) : ∀ (l : List Char) (c : Char),
    (l.dropWhile p).head? = some c → p c = false := by
  intro l
  induction l with
  | nil => intro c h; exact absurd h (by simp)
  | cons d t ih =>
    intro c h
    rw [List.dropWhile_cons] at h
    by_cases hd : p d = true
    · rw [if_pos hd] at h
      exact ih c h
    · rw [if_neg hd, List.head?_cons] at h
      injection h with h
      rw [← h]
      exact Bool.eq_false_iff.mpr hd

theorem numTokU_rest_head (s n r : List Char) (h : numTokU s = some (n, r)) :
    ∀ c, r.head? = some c → c.isDigit = false := by
  rw [numTokU] at h
  cases hd : digits1 s with
  | none => rw [hd] at h; exact absurd h (by simp)
  | some p =>
    obtain ⟨ds, r1⟩ := p
    rw [hd] at h
    dsimp only at h
    have hr1 : r1 = s.dropWhile Char.isDigit := by
      rw [digits1] at hd
      cases htw : s.takeWhile Char.isDigit with
      | nil => rw [htw] at hd; exact absurd hd (by simp)
      | cons d t =>
        rw [htw] at hd
        injection hd with hd
        injection hd with _ h2
        exact h2.symm
    split at h
    · next r2 =>
      injection h with h
      injection h with _ h2
      intro c hc
      rw [← h2] at hc
      exact head_dropWhile_false Char.isDigit r2 c hc
    · injection h with h
      injection h with _ h2
      intro c hc
      rw [← h2, hr1] at hc
      exact head_dropWhile_false Char.isDigit s c hc

theorem numTok_rest_head (s n r : List Char) (h : numTok s = some (n, r)) :
    ∀ c, r.head? = some c → c.isDigit = false := by
  rw [numTok] at h
  by_cases hh : s.head? = some '-'
  · rw [if_pos hh] at h
    cases hu : numTokU s.tail with
    | none => rw [hu] at h; exact absurd h (by simp)
    | some p =>
      obtain ⟨n1, r1⟩ := p
      rw [hu] at h
      injection h with h
      injection h with _ h2
      intro c hc
      rw [← h2] at hc
      exact numTokU_rest_head s.tail n1 r1 hu c hc
  · rw [if_neg hh] at h
    exact numTokU_rest_head s n r h

theorem isPrefixOf_mono (p l e : List Char) (h : p.isPrefixOf l = true) :
    p.isPrefixOf (l ++ e) = true := by
  rw [List.isPrefixOf_iff_prefix] at h ⊢
  exact h.trans (List.prefix_append l e)

theorem countSub_le_append (p : List Char) : ∀ l e : List Char,
    countSub p l ≤ countSub p (l ++ e) := by
  intro l e
  induction l with
  | nil => rw [countSub]; omega
  | cons c t ih =>
    rw [List.cons_append, countSub, countSub]
    by_cases hp : p.isPrefixOf (c :: t) = true
    · have hp2 : p.isPrefixOf (c :: (t ++ e)) = true := by
        have := isPrefixOf_mono p (c :: t) e hp
        simpa using this
      rw [hp, hp2]
      omega
    · have : (if p.isPrefixOf (c :: t) then 1 else 0) = 0 := by
        rw [Bool.not_eq_true] at hp
        rw [hp]
        rfl
      rw [this]
      have h2 : (if p.isPrefixOf (c :: t ++ e) then 1 else 0) ≥ 0 := by omega
      omega

theorem countSub_drop (p : List Char) : ∀ a t : List Char,
    countSub p t ≤ countSub p (a ++ t) := by
  intro a t
  induction a with
  | nil => exact Nat.le_refl _
  | cons c b ih =>
    rw [List.cons_append, countSub]
    omega

theorem countSub_one (p : List Char) (hp : p ≠ []) : ∀ a b : List Char,
    1 ≤ countSub p (a ++ (p ++ b)) := by
  intro a b
  have h1 : 1 ≤ countSub p (p ++ b) := by
    cases hq : p with
    | nil => exact absurd hq hp
    | cons c t =>
      rw [← hq, show p ++ b = c :: (t ++ b) from by rw [hq]; rfl, countSub]
      have : p.isPrefixOf (c :: (t ++ b)) = true := by
        rw [show c :: (t ++ b) = p ++ b from by rw [hq]; rfl]
        rw [List.isPrefixOf_iff_prefix]
        exact List.prefix_append p b
      rw [this]
      have h0 : (if true = true then 1 else 0) = 1 := rfl
      rw [h0]
      omega
  exact le_trans h1 (countSub_drop p a (p ++ b))

theorem countSub_two_aux (p : List Char) (hp : p ≠ []) (v y z w : List Char)
    (h : v ++ (p ++ z) = y ++ (p ++ w)) (hlt : v.length < y.length) :
    2 ≤ countSub p (v ++ (p ++ z)) := by
  have hv : v = y.take v.length := by
    have h5 := congrArg (List.take v.length) h
    rw [List.take_left] at h5
    rw [List.take_append_of_le_length (le_of_lt hlt)] at h5
    exact h5
  have hd : p ++ z = y.drop v.length ++ (p ++ w) := by
    have h5 : y ++ (p ++ w) = v ++ (y.drop v.length ++ (p ++ w)) := by
      conv_lhs => rw [← List.take_append_drop v.length y]
      rw [← hv, List.append_assoc]
    rw [h5] at h
    exact List.append_cancel_left h
  have hdne : y.drop v.length ≠ [] := by
    intro hnil
    have := congrArg List.length hnil
    rw [List.length_drop] at this
    simp at this
    omega
  obtain ⟨c, t, hq⟩ : ∃ c t, p = c :: t := by
    cases p with
    | nil => exact absurd rfl hp
    | cons c t => exact ⟨c, t, rfl⟩
  subst hq
  have hcons : (c :: t) ++ z = c :: (t ++ z) := rfl
  have hpre : (c :: t).isPrefixOf (c :: (t ++ z)) = true := by
    rw [← hcons, List.isPrefixOf_iff_prefix]
    exact List.prefix_append _ z
  have hstep : countSub (c :: t) ((c :: t) ++ z) = 1 + countSub (c :: t) (t ++ z) := by
    rw [hcons, countSub, hpre]
    rfl
  have htz : 1 ≤ countSub (c :: t) (t ++ z) := by
    cases hdq : y.drop v.length with
    | nil => exact absurd hdq hdne
    | cons c2 d2 =>
      have h6 : c :: (t ++ z) = c2 :: (d2 ++ ((c :: t) ++ w)) := by
        rw [← hcons, hd, hdq]
        rfl
      injection h6 with h4 h5
      rw [h5]
      exact countSub_one (c :: t) hp d2 w
  have hfin : 2 ≤ countSub (c :: t) ((c :: t) ++ z) := by omega
  exact le_trans hfin (countSub_drop (c :: t) v _)

theorem countSub_two (p : List Char) (hp : p ≠ []) (v y z w : List Char)
    (h : v ++ (p ++ z) = y ++ (p ++ w)) (hne : y ≠ v) :
    2 ≤ countSub p (v ++ (p ++ z)) := by
  have hlen : v.length ≠ y.length := by
    intro he
    exact hne ((List.append_inj h he).1.symm)
  by_cases hlt : v.length < y.length
  · exact countSub_two_aux p hp v y z w h hlt
  · have := countSub_two_aux p hp y v w z h.symm (by omega)
    rw [← h] at this
    exact this

theorem NoM_of_count (v sp2 : List Char)
    (h : countSub mLit (v ++ (mLit ++ sp2)) ≤ 1) : NoM v sp2 := by
  intro y z heq
  by_contra hne
  have := countSub_two mLit (by decide) v y sp2 z heq hne
  omega

theorem NoM_suffix (a b sp2 : List Char) (h : NoM (a ++ b) sp2) : NoM b sp2 := by
  intro y z heq
  have h2 : (a ++ b) ++ (mLit ++ sp2) = (a ++ y) ++ (mLit ++ z) := by
    rw [List.append_assoc, heq, List.append_assoc]
  have h3 : a ++ y = a ++ b := h (a ++ y) z h2
  exact List.append_cancel_left h3

theorem overlap_absurd2 (a b : List Char) (n : Nat) (hof : overlapFreeTo a b n = true)
    (y lit1 X r : List Char) (hy : a = y ++ lit1) (hx : lit1 ++ r = b ++ X)
    (hne : lit1 ≠ []) (hlen : lit1.length ≤ n) (hlen2 : lit1.length ≤ b.length) :
    False := by
  have hk1 : 1 ≤ lit1.length := by
    cases lit1 with
    | nil => exact absurd rfl hne
    | cons c t => simp
  have hmem : lit1.length - 1 ∈ List.range n := List.mem_range.mpr (by omega)
  have hall := List.all_eq_true.mp hof _ hmem
  rw [Bool.not_eq_true', decide_eq_false_iff_not] at hall
  apply hall
  have h1 : a.drop (a.length - lit1.length) = lit1 := by
    rw [hy, List.length_append,
      show y.length + lit1.length - lit1.length = y.length from by omega, List.drop_left]
  have h2 : b.take lit1.length = lit1 := by
    have h5 := congrArg (List.take lit1.length) hx
    rw [List.take_left] at h5
    rw [List.take_append_of_le_length hlen2] at h5
    exact h5.symm
  rw [show lit1.length - 1 + 1 = lit1.length from by omega, h1, h2]

theorem ofree_mm : overlapFreeTo mLit mLit 10 = true := by decide

theorem ofree_tm : overlapFreeTo tLit mLit 6 = true := by decide

theorem ofree_te : overlapFreeTo tLit eLit 6 = true := by decide

theorem ofree_me : overlapFreeTo mLit eLit 10 = true := by decide

theorem ofree_re : overlapFreeTo rLit eLit 3 = true := by decide

theorem mLit_len : mLit.length = 11 := by decide

theorem tryMult_none_pre (c : Char) (v' sp2 t : List Char) (hno : NoM (c :: v') sp2) :
    tryMultAt ((c :: v') ++ (mLit ++ (sp2 ++ t))) = none := by
  have hstrip : stripLit mLit ((c :: v') ++ (mLit ++ (sp2 ++ t))) = none := by
    rcases stripLit_cross mLit (c :: v') with ⟨x1, hx1, _⟩ | ⟨lit1, hl1, hne, hs⟩ | hn
    · exfalso
      have heq : (c :: v') ++ (mLit ++ sp2) = [] ++ (mLit ++ (x1 ++ (mLit ++ sp2))) := by
        rw [hx1]
        simp [List.append_assoc]
      have := hno [] (x1 ++ (mLit ++ sp2)) heq
      exact absurd this.symm (by simp)
    · rw [hs (mLit ++ (sp2 ++ t))]
      apply stripLit_none
      intro r he
      have hlen : lit1.length ≤ 10 := by
        have := congrArg List.length hl1
        rw [mLit_len, List.length_append, List.length_cons] at this
        omega
      exact overlap_absurd2 mLit mLit 10 ofree_mm (c :: v') lit1 (sp2 ++ t) r hl1
        (by rw [he]) hne hlen (by rw [mLit_len]; omega)
    · exact hn (mLit ++ (sp2 ++ t))
  rw [tryMultAt, hstrip]

theorem numTok_ne_nil (s n r : List Char) (h : numTok s = some (n, r)) : n ≠ [] := by
  rw [numTok] at h
  by_cases hh : s.head? = some '-'
  · rw [if_pos hh] at h
    cases hu : numTokU s.tail with
    | none => rw [hu] at h; exact absurd h (by simp)
    | some p =>
      obtain ⟨n1, r1⟩ := p
      rw [hu] at h
      injection h with h
      injection h with h1 _
      rw [← h1]
      simp
  · rw [if_neg hh] at h
    rw [numTokU] at h
    cases hd : digits1 s with
    | none => rw [hd] at h; exact absurd h (by simp)
    | some p =>
      obtain ⟨ds, r1⟩ := p
      obtain ⟨_, hdsne, _⟩ := digits1_decomp s ds r1 hd
      rw [hd] at h
      dsimp only at h
      split at h
      · next r2 =>
        injection h with h
        injection h with h1 _
        rw [← h1]
        intro hc
        exact hdsne (List.append_eq_nil.mp hc).1
      · injection h with h
        injection h with h1 _
        rw [← h1]
        exact hdsne

theorem numTok_head_not_space (s n r : List Char) (h : numTok s = some (n, r)) :
    ∀ c, s.head? = some c → pySpace c = false := by
  intro c hc
  have hs : s = n ++ r := numTok_decomp s n r h
  rw [numTok] at h
  by_cases hh : s.head? = some '-'
  · rw [hc] at hh
    injection hh with hh
    rw [hh]
    decide
  · rw [if_neg hh, numTokU] at h
    cases hd : digits1 s with
    | none => rw [hd] at h; exact absurd h (by simp)
    | some p =>
      obtain ⟨ds, r1⟩ := p
      obtain ⟨hsd, hdsne, hdig⟩ := digits1_decomp s ds r1 hd
      have hcd : c.isDigit = true := by
        cases ds with
        | nil => exact absurd rfl hdsne
        | cons d t =>
          have : s.head? = some d := by rw [hsd]; rfl
          rw [hc] at this
          injection this with this
          rw [this]
          exact hdig d (by simp)
      cases hps : pySpace c with
      | false => rfl
      | true =>
        exfalso
        rcases pySpace_cases c hps with h1 | h1 | h1 | h1 | h1 | h1 <;>
          (rw [h1] at hcd; exact absurd hcd (by decide))

theorem tryMultAt_designated (sp2 X r : List Char)
    (hsp2 : ∀ c ∈ sp2, pySpace c = true)
    (hXh : ∀ c, (X ++ r).head? = some c → pySpace c = false)
    (hX : numTok (X ++ r) = some (X, r)) :
    tryMultAt (mLit ++ (sp2 ++ (X ++ r))) = some (mLit ++ sp2, X, r) := by
  rw [tryMultAt, stripLit_self_app]
  dsimp only
  rw [dw_app_stop pySpace sp2 (X ++ r) hXh, dropWhile_nil_all pySpace sp2 hsp2,
    List.nil_append, hX]
  dsimp only
  rw [tw_app_stop pySpace sp2 (X ++ r) hXh, takeWhile_all pySpace sp2 hsp2]

theorem lazyMult_pre : ∀ (v sp2 X r : List Char), NoM v sp2 →
    tryMultAt (mLit ++ (sp2 ++ (X ++ r))) = some (mLit ++ sp2, X, r) →
    lazyMult (v ++ (mLit ++ (sp2 ++ (X ++ r)))) = if '\n' ∈ v then none else some X := by
  intro v
  induction v with
  | nil =>
    intro sp2 X r _ htm
    rw [List.nil_append, if_neg (by simp)]
    cases hm : mLit ++ (sp2 ++ (X ++ r)) with
    | nil =>
      exact absurd (congrArg List.length hm)
        (by rw [List.length_append, mLit_len]; simp)
    | cons c t =>
      rw [lazyMult, ← hm, htm]
  | cons c v' ih =>
    intro sp2 X r hno htm
    rw [List.cons_append, lazyMult,
      show c :: (v' ++ (mLit ++ (sp2 ++ (X ++ r)))) =
        (c :: v') ++ (mLit ++ (sp2 ++ (X ++ r))) from rfl,
      tryMult_none_pre c v' sp2 (X ++ r) hno]
    have hno2 : NoM v' sp2 := NoM_suffix [c] v' sp2 hno
    by_cases hc : c = '\n'
    · rw [if_pos hc, if_pos (by rw [hc]; exact List.mem_cons_self _ _)]
    · rw [if_neg hc, ih sp2 X r hno2 htm]
      by_cases hv : '\n' ∈ v'
      · rw [if_pos hv, if_pos (List.mem_cons_of_mem c hv)]
      · rw [if_neg hv, if_neg ?_]
        intro hmem
        rcases List.mem_cons.mp hmem with h1 | h1
        · exact hc h1.symm
        · exact hv h1

theorem subMult_pre : ∀ (v sp2 X r repl : List Char), NoM v sp2 →
    tryMultAt (mLit ++ (sp2 ++ (X ++ r))) = some (mLit ++ sp2, X, r) →
    subMultLine (v ++ (mLit ++ (sp2 ++ (X ++ r)))) repl =
      v ++ (mLit ++ (sp2 ++ (repl ++ r))) := by
  intro v
  induction v with
  | nil =>
    intro sp2 X r repl _ htm
    rw [List.nil_append, List.nil_append]
    cases hm : mLit ++ (sp2 ++ (X ++ r)) with
    | nil =>
      exact absurd (congrArg List.length hm)
        (by rw [List.length_append, mLit_len]; simp)
    | cons c t =>
      rw [subMultLine, ← hm, htm]
      simp [List.append_assoc]
  | cons c v' ih =>
    intro sp2 X r repl hno htm
    rw [List.cons_append, subMultLine,
      show c :: (v' ++ (mLit ++ (sp2 ++ (X ++ r)))) =
        (c :: v') ++ (mLit ++ (sp2 ++ (X ++ r))) from rfl,
      tryMult_none_pre c v' sp2 (X ++ r) hno,
      ih sp2 X r repl (NoM_suffix [c] v' sp2 hno) htm]
    rfl

theorem tLit_len : tLit.length = 7 := by decide

theorem mLit_head (t : List Char) : (mLit ++ t).head? = some 'm' := by
  rw [mLit_exp]
  rfl

theorem mLit_tw : mLit.takeWhile wordChar = "multiplier".data := by decide

theorem mLit_dw : mLit.dropWhile wordChar = [':'] := by decide

theorem mword_ne : "multiplier".data ≠ [] := by decide

theorem tryTM_point (x sp2 X r : List Char) (hno : NoM x sp2)
    (htm : tryMultAt (mLit ++ (sp2 ++ (X ++ r))) = some (mLit ++ sp2, X, r)) :
    tryTMAt (x ++ (mLit ++ (sp2 ++ (X ++ r)))) =
      (tmShape x).map (fun w => (w, X)) := by
  cases x with
  | nil =>
    rw [List.nil_append]
    have h1 : stripLit tLit (mLit ++ (sp2 ++ (X ++ r))) = none := by
      apply stripLit_none
      intro r2 he
      rw [mLit_exp, tLit_exp, List.cons_append] at he
      injection he with h2 _
      exact absurd h2 (by decide)
    rw [tryTMAt, h1]
    with_unfolding_all rfl
  | cons c x' =>
    rcases stripLit_cross tLit (c :: x') with ⟨x1, hx1, hsome⟩ | ⟨lit1, hl1, hne, hs⟩ | hn
    · have hx1strip : stripLit tLit (c :: x') = some x1 := by
        have h0 := hsome []
        rwa [List.append_nil, List.append_nil] at h0
      rw [tryTMAt, hsome (mLit ++ (sp2 ++ (X ++ r))), tmShape, hx1strip]
      dsimp only
      rw [dw_app pySpace x1 (mLit ++ (sp2 ++ (X ++ r)))]
      cases hx1c : x1.dropWhile pySpace with
      | nil =>
        rw [if_pos rfl]
        rw [dropWhile_self_of_head pySpace _ (fun cc hcc => by
          rw [mLit_head] at hcc
          injection hcc with hcc
          rw [← hcc]
          decide)]
        cases hm : mLit ++ (sp2 ++ (X ++ r)) with
        | nil =>
          exact absurd (congrArg List.length hm)
            (by rw [List.length_append, mLit_len]; simp)
        | cons m0 t0 =>
          have hm0 : m0 = 'm' := by
            have h3 := mLit_head (sp2 ++ (X ++ r))
            rw [hm, List.head?_cons] at h3
            exact Option.some.inj h3
          dsimp only
          rw [if_neg (by rw [hm0]; decide)]
          rfl
      | cons c2 x2 =>
        rw [if_neg (by simp), List.cons_append]
        dsimp only
        by_cases hc2 : c2 = q1
        · rw [if_pos hc2, if_pos hc2,
            tw_app wordChar x2 (mLit ++ (sp2 ++ (X ++ r)))]
          cases hx2c : x2.dropWhile wordChar with
          | nil =>
            rw [if_pos rfl]
            have htwM :
                (mLit ++ (sp2 ++ (X ++ r))).takeWhile wordChar = "multiplier".data := by
              rw [tw_app wordChar mLit _, if_neg (by rw [mLit_dw]; simp), mLit_tw]
            rw [htwM]
            cases hw : x2 ++ "multiplier".data with
            | nil => exact absurd (List.append_eq_nil.mp hw).2 mword_ne
            | cons w0 w1 =>
              dsimp only
              rw [dw_app wordChar x2 (mLit ++ (sp2 ++ (X ++ r))), hx2c, if_pos rfl]
              have hdwM : (mLit ++ (sp2 ++ (X ++ r))).dropWhile wordChar =
                  ':' :: (sp2 ++ (X ++ r)) := by
                rw [dw_app wordChar mLit _, if_neg (by rw [mLit_dw]; simp), mLit_dw]
                rfl
              rw [hdwM]
              dsimp only
              rw [if_neg (by decide)]
              cases hxt : x2.takeWhile wordChar with
              | nil => rfl
              | cons a b => rfl
          | cons d2 x3 =>
            rw [if_neg (by simp)]
            cases hxt : x2.takeWhile wordChar with
            | nil => rfl
            | cons w0 w1 =>
              dsimp only
              rw [dw_app wordChar x2 (mLit ++ (sp2 ++ (X ++ r))), hx2c, if_neg (by simp),
                List.cons_append]
              dsimp only
              by_cases hd2 : d2 = q1
              · rw [if_pos hd2, if_pos hd2]
                have hsplit1 : x1 = x1.takeWhile pySpace ++ (c2 :: x2) := by
                  conv_lhs => rw [← List.takeWhile_append_dropWhile (p := pySpace) (l := x1)]
                  rw [hx1c]
                have hsplit2 : x2 = x2.takeWhile wordChar ++ (d2 :: x3) := by
                  conv_lhs => rw [← List.takeWhile_append_dropWhile (p := wordChar) (l := x2)]
                  rw [hx2c]
                have hsub : ∃ a, (c :: x') = a ++ x3 := by
                  refine ⟨tLit ++ (x1.takeWhile pySpace ++
                    (c2 :: (x2.takeWhile wordChar ++ [d2]))), ?_⟩
                  rw [hx1]
                  conv_lhs => rw [hsplit1, hsplit2]
                  simp [List.append_assoc]
                have hno3 : NoM x3 sp2 := by
                  obtain ⟨a, ha⟩ := hsub
                  rw [ha] at hno
                  exact NoM_suffix a x3 sp2 hno
                rw [lazyMult_pre x3 sp2 X r hno3 htm]
                by_cases hnl : '\n' ∈ x3
                · rw [if_pos hnl, if_pos hnl]
                  rfl
                · rw [if_neg hnl, if_neg hnl]
                  rfl
              · rw [if_neg hd2, if_neg hd2]
                rfl
        · rw [if_neg hc2, if_neg hc2]
          rfl
    · have hlen : lit1.length ≤ 6 := by
        have h0 := congrArg List.length hl1
        rw [tLit_len, List.length_append, List.length_cons] at h0
        omega
      have hstrip : stripLit tLit ((c :: x') ++ (mLit ++ (sp2 ++ (X ++ r)))) = none := by
        rw [hs]
        apply stripLit_none
        intro r2 he
        exact overlap_absurd2 tLit mLit 6 ofree_tm (c :: x') lit1 (sp2 ++ (X ++ r)) r2 hl1
          he.symm hne hlen (by rw [mLit_len]; omega)
      rw [tryTMAt, hstrip]
      have h2 : stripLit tLit (c :: x') = none := by
        have h3 := hs []
        rw [List.append_nil] at h3
        rw [h3]
        cases hl : lit1 with
        | nil => exact absurd hl hne
        | cons a b => rfl
      rw [tmShape, h2]
      rfl
    · rw [tryTMAt, hn (mLit ++ (sp2 ++ (X ++ r)))]
      have h2 : stripLit tLit (c :: x') = none := by
        have h3 := hn []
        rwa [List.append_nil] at h3
      rw [tmShape, h2]
      rfl

theorem searchTM_M (sp2 X r : List Char) (hsp2 : ∀ c ∈ sp2, pySpace c = true)
    (hXt : ∀ c ∈ X, c ≠ 't') :
    searchTM (mLit ++ (sp2 ++ (X ++ r))) = searchTM r := by
  rw [mLit_exp]
  show searchTM ('m' :: 'u' :: 'l' :: 't' :: 'i' :: 'p' :: 'l' :: 'i' :: 'e' :: 'r' :: ':' ::
    (sp2 ++ (X ++ r))) = searchTM r
  rw [searchTM_cons_none _ _ (tryTM_none1 _ _ (by decide)),
    searchTM_cons_none _ _ (tryTM_none1 _ _ (by decide)),
    searchTM_cons_none _ _ (tryTM_none1 _ _ (by decide)),
    searchTM_cons_none _ _ (tryTM_none2 _ _ (by decide)),
    searchTM_cons_none _ _ (tryTM_none1 _ _ (by decide)),
    searchTM_cons_none _ _ (tryTM_none1 _ _ (by decide)),
    searchTM_cons_none _ _ (tryTM_none1 _ _ (by decide)),
    searchTM_cons_none _ _ (tryTM_none1 _ _ (by decide)),
    searchTM_cons_none _ _ (tryTM_none1 _ _ (by decide)),
    searchTM_cons_none _ _ (tryTM_none1 _ _ (by decide)),
    searchTM_cons_none _ _ (tryTM_none1 _ _ (by decide)),
    searchTM_skip sp2 (X ++ r) (fun c hc => pySpace_ne c 't' (hsp2 c hc) (by decide)),
    searchTM_skip X r hXt]

theorem searchTM_pre : ∀ (v sp2 X r : List Char), NoM v sp2 →
    tryMultAt (mLit ++ (sp2 ++ (X ++ r))) = some (mLit ++ sp2, X, r) →
    (∀ c ∈ sp2, pySpace c = true) → (∀ c ∈ X, c ≠ 't') →
    searchTM (v ++ (mLit ++ (sp2 ++ (X ++ r)))) =
      (match smShape v with
       | some w => some (w, X)
       | none => searchTM r) := by
  intro v
  induction v with
  | nil =>
    intro sp2 X r _ _ hsp2 hXt
    rw [List.nil_append, searchTM_M sp2 X r hsp2 hXt]
    rfl
  | cons c v' ih =>
    intro sp2 X r hno htm hsp2 hXt
    have hpt := tryTM_point (c :: v') sp2 X r hno htm
    rw [List.cons_append, searchTM,
      show c :: (v' ++ (mLit ++ (sp2 ++ (X ++ r)))) =
        (c :: v') ++ (mLit ++ (sp2 ++ (X ++ r))) from rfl,
      hpt, smShape]
    cases htm0 : tmShape (c :: v') with
    | some w => rfl
    | none =>
      dsimp only
      exact ih sp2 X r (NoM_suffix [c] v' sp2 hno) htm hsp2 hXt

theorem smShape_app_some (c : Char) (t w : List Char)
    (h : tmShape (c :: t) = some w) : ∀ a, smShape (a ++ (c :: t)) ≠ none := by
  intro a
  induction a with
  | nil =>
    rw [List.nil_append, smShape, h]
    simp
  | cons d a2 ih =>
    rw [List.cons_append, smShape]
    cases htd : tmShape (d :: (a2 ++ (c :: t))) with
    | some w2 => simp
    | none =>
      dsimp only
      exact ih

theorem mem_takeWhile_word (c : Char) : ∀ l : List Char,
    c ∈ l.takeWhile wordChar → wordChar c = true := by
  intro l
  induction l with
  | nil => intro h; exact absurd h (by simp)
  | cons d t ih =>
    intro h
    rw [List.takeWhile_cons] at h
    by_cases hd : wordChar d = true
    · rw [if_pos (by rw [hd])] at h
      rcases List.mem_cons.mp h with h1 | h1
      · rw [h1]; exact hd
      · exact ih h1
    · rw [if_neg (by rw [Bool.not_eq_true] at hd; rw [hd]; simp)] at h
      exact absurd h (by simp)

theorem tmShape_designated (sp w u : List Char) (hsp : ∀ c ∈ sp, pySpace c = true)
    (hw : w ≠ []) (hwchars : ∀ c ∈ w, wordChar c = true) (hnl : '\n' ∉ u) :
    tmShape (tLit ++ (sp ++ (q1 :: (w ++ (q1 :: u))))) = some w := by
  rw [tmShape, stripLit_self_app]
  dsimp only
  rw [dw_app_stop pySpace sp _ (fun c hc => by
      injection hc with hc
      rw [← hc]
      decide),
    dropWhile_nil_all pySpace sp hsp, List.nil_append]
  dsimp only
  rw [if_pos rfl,
    tw_app_stop wordChar w (q1 :: u) (fun c hc => by
      injection hc with hc
      rw [← hc]
      decide),
    takeWhile_all wordChar w hwchars]
  cases hwc : w with
  | nil => exact absurd hwc hw
  | cons w0 w1 =>
    dsimp only
    rw [dw_app_stop wordChar (w0 :: w1) (q1 :: u) (fun c hc => by
        injection hc with hc
        rw [← hc]
        decide),
      dropWhile_nil_all wordChar (w0 :: w1) (by rw [← hwc]; exact hwchars),
      List.nil_append]
    dsimp only
    rw [if_pos rfl, if_neg hnl]

theorem tryTMAt_some_decomp (s w n : List Char) (h : tryTMAt s = some (w, n)) :
    ∃ sp y, s = tLit ++ (sp ++ (q1 :: (w ++ (q1 :: y)))) ∧
      (∀ c ∈ sp, pySpace c = true) ∧ w ≠ [] ∧ (∀ c ∈ w, wordChar c = true) ∧
      lazyMult y = some n := by
  rw [tryTMAt] at h
  cases hstrip : stripLit tLit s with
  | none => rw [hstrip] at h; exact absurd h (by simp)
  | some r1 =>
    rw [hstrip] at h
    dsimp only at h
    cases hdw : r1.dropWhile pySpace with
    | nil => rw [hdw] at h; exact absurd h (by simp)
    | cons c r3 =>
      rw [hdw] at h
      dsimp only at h
      by_cases hc : c = q1
      case neg => rw [if_neg hc] at h; exact absurd h (by simp)
      rw [if_pos hc] at h
      cases htw : r3.takeWhile wordChar with
      | nil => rw [htw] at h; exact absurd h (by simp)
      | cons w0 w1 =>
        rw [htw] at h
        dsimp only at h
        cases hdw2 : r3.dropWhile wordChar with
        | nil => rw [hdw2] at h; exact absurd h (by simp)
        | cons d r5 =>
          rw [hdw2] at h
          dsimp only at h
          by_cases hd : d = q1
          case neg => rw [if_neg hd] at h; exact absurd h (by simp)
          rw [if_pos hd] at h
          cases hlz : lazyMult r5 with
          | none => rw [hlz] at h; exact absurd h (by simp)
          | some n1 =>
            rw [hlz] at h
            injection h with h
            injection h with h1 h2
            refine ⟨r1.takeWhile pySpace, r5, ?_, ?_, ?_, ?_, ?_⟩
            · rw [(stripLit_iff tLit s r1).mp hstrip]
              have e1 : r1 = r1.takeWhile pySpace ++ (c :: r3) := by
                conv_lhs => rw [← List.takeWhile_append_dropWhile (p := pySpace) (l := r1)]
                rw [hdw]
              have e2 : r3 = (w0 :: w1) ++ (d :: r5) := by
                conv_lhs => rw [← List.takeWhile_append_dropWhile (p := wordChar) (l := r3)]
                rw [htw, hdw2]
              congr 1
              conv_lhs => rw [e1, e2]
              simp [hc, hd, h1, List.append_assoc]
            · intro cc hcc
              exact mem_takeWhile_space cc r1 hcc
            · rw [← h1]
              simp
            · intro cc hcc
              rw [← h1, ← htw] at hcc
              exact mem_takeWhile_word cc r3 hcc
            · rw [← h2]
              exact hlz

theorem lazyMult_some_decomp : ∀ (y n : List Char), lazyMult y = some n →
    ∃ v sp2 rest, y = v ++ (mLit ++ (sp2 ++ (n ++ rest))) ∧ '\n' ∉ v ∧
      (∀ c ∈ sp2, pySpace c = true) ∧
      tryMultAt (mLit ++ (sp2 ++ (n ++ rest))) = some (mLit ++ sp2, n, rest) ∧
      numTok (n ++ rest) = some (n, rest) := by
  intro y
  induction y with
  | nil =>
    intro n h
    exact absurd h (by rw [lazyMult]; simp)
  | cons c t ih =>
    intro n h
    rw [lazyMult] at h
    cases htry : tryMultAt (c :: t) with
    | some g =>
      obtain ⟨g1, num, rest⟩ := g
      rw [htry] at h
      dsimp only at h
      injection h with h
      obtain ⟨sp2, hg1, hsp2, hs, hnum⟩ := tryMultAt_decomp (c :: t) g1 num rest htry
      refine ⟨[], sp2, rest, by rw [List.nil_append, ← h]; exact hs, by simp, hsp2, ?_, ?_⟩
      · rw [← h, ← hs, ← hg1]
        exact htry
      · rw [← h]
        exact hnum
    | none =>
      rw [htry] at h
      dsimp only at h
      by_cases hc : c = '\n'
      · rw [if_pos hc] at h
        exact absurd h (by simp)
      · rw [if_neg hc] at h
        obtain ⟨v, sp2, rest, hy, hnl, hsp2, htm, hnum⟩ := ih n h
        refine ⟨c :: v, sp2, rest, by rw [List.cons_append, ← hy], ?_, hsp2, htm, hnum⟩
        intro hmem
        rcases List.mem_cons.mp hmem with h1 | h1
        · exact hc h1.symm
        · exact hnl h1

theorem searchTM_some_decomp : ∀ (l : List Char) (res : List Char × List Char),
    searchTM l = some res →
    ∃ P z, l = P ++ z ∧ tryTMAt z = some res ∧
      (∀ P1 c P2, P = P1 ++ (c :: P2) → tryTMAt (c :: (P2 ++ z)) = none) := by
  intro l
  induction l with
  | nil =>
    intro res h
    exact absurd h (by rw [searchTM]; simp)
  | cons c t ih =>
    intro res h
    rw [searchTM] at h
    cases htry : tryTMAt (c :: t) with
    | some r2 =>
      rw [htry] at h
      dsimp only at h
      injection h with h
      refine ⟨[], c :: t, rfl, by rw [htry, h], ?_⟩
      intro P1 c2 P2 hP
      exact absurd hP.symm (by simp)
    | none =>
      rw [htry] at h
      dsimp only at h
      obtain ⟨P, z, hl, hz, hfail⟩ := ih res h
      refine ⟨c :: P, z, by rw [List.cons_append, hl], hz, ?_⟩
      intro P1 c2 P2 hP
      cases P1 with
      | nil =>
        rw [List.nil_append] at hP
        injection hP with h1 h2
        rw [← h1, ← h2, ← hl]
        exact htry
      | cons d P1b =>
        rw [List.cons_append] at hP
        injection hP with _ h2
        exact hfail P1b c2 P2 h2

theorem searchTM_walk : ∀ (P z : List Char),
    (∀ P1 c P2, P = P1 ++ (c :: P2) → tryTMAt (c :: (P2 ++ z)) = none) →
    searchTM (P ++ z) = searchTM z := by
  intro P
  induction P with
  | nil =>
    intro z _
    rfl
  | cons c t ih =>
    intro z hf
    rw [List.cons_append, searchTM_cons_none c (t ++ z) (hf [] c t rfl)]
    exact ih z (fun P1 c2 P2 hP => hf (c :: P1) c2 P2 (by rw [hP]; rfl))

theorem numTokU_chars (s n r : List Char) (h : numTokU s = some (n, r)) :
    ∀ c ∈ n, c.isDigit = true ∨ c = '.' := by
  rw [numTokU] at h
  cases hd : digits1 s with
  | none => rw [hd] at h; exact absurd h (by simp)
  | some p =>
    obtain ⟨ds, r1⟩ := p
    obtain ⟨hs1, hne1, hdig⟩ := digits1_decomp s ds r1 hd
    rw [hd] at h
    dsimp only at h
    split at h
    · next r2 =>
      injection h with h
      injection h with h1 _
      intro c hc
      rw [← h1] at hc
      rcases List.mem_append.mp hc with h2 | h2
      · left
        exact hdig c h2
      · rcases List.mem_cons.mp h2 with h3 | h3
        · right
          exact h3
        · left
          exact mem_takeWhile_digit c r2 h3
    · injection h with h
      injection h with h1 _
      intro c hc
      rw [← h1] at hc
      left
      exact hdig c hc

theorem numTok_chars (s n r : List Char) (h : numTok s = some (n, r)) :
    ∀ c ∈ n, c.isDigit = true ∨ c = '.' ∨ c = '-' := by
  rw [numTok] at h
  by_cases hh : s.head? = some '-'
  · rw [if_pos hh] at h
    cases hu : numTokU s.tail with
    | none => rw [hu] at h; exact absurd h (by simp)
    | some p =>
      obtain ⟨n1, r1⟩ := p
      rw [hu] at h
      injection h with h
      injection h with h1 _
      intro c hc
      rw [← h1] at hc
      rcases List.mem_cons.mp hc with h2 | h2
      · right; right; exact h2
      · rcases numTokU_chars s.tail n1 r1 hu c h2 with h3 | h3
        · left; exact h3
        · right; left; exact h3
  · rw [if_neg hh] at h
    intro c hc
    rcases numTokU_chars s n r h c hc with h3 | h3
    · left; exact h3
    · right; left; exact h3

theorem digitChar_toNat (m : Nat) : (digitChar m).toNat = 48 + m % 10 := by
  rw [digitChar]
  have h : m % 10 < 10 := Nat.mod_lt _ (by norm_num)
  set k := m % 10 with hk
  interval_cases k <;> decide

theorem natOfDigits_append (xs : List Char) (c : Char) :
    natOfDigits (xs ++ [c]) = 10 * natOfDigits xs + (c.toNat - 48) := by
  rw [natOfDigits, natOfDigits, List.foldl_append]
  rfl

theorem natOfDigits_natToChars (n : Nat) : natOfDigits (natToChars n) = n := by
  induction n using Nat.strong_induction_on with
  | _ n ih =>
    rw [natToChars]
    split
    · next h =>
      show natOfDigits [digitChar n] = n
      show 10 * 0 + ((digitChar n).toNat - 48) = n
      rw [digitChar_toNat]
      omega
    · next h =>
      rw [natOfDigits_append, ih (n / 10) (Nat.div_lt_self (by omega) (by omega)),
        digitChar_toNat]
      omega

theorem natOfDigits_two (x y : Nat) :
    natOfDigits [digitChar x, digitChar y] = 10 * (x % 10) + y % 10 := by
  show 10 * (10 * 0 + ((digitChar x).toNat - 48)) + ((digitChar y).toNat - 48) =
    10 * (x % 10) + y % 10
  rw [digitChar_toNat, digitChar_toNat]
  omega

theorem parseNum_cons_ne (c : Char) (t : List Char) (h : c ≠ '-') :
    parseNum (c :: t) = parseDec (c :: t) := by
  unfold parseNum
  split
  · next s heq =>
    injection heq with h1 _
    exact absurd h1 h
  · rfl

theorem parseNum_neg (t : List Char) : parseNum ('-' :: t) = -(parseDec t) := by
  with_unfolding_all rfl

theorem roundHalfEven_int (k : ℤ) : roundHalfEven (k : ℚ) = k := by
  have h1 : qfloor (k : ℚ) = k := by
    rw [qfloor, Rat.num_intCast, Rat.den_intCast]
    simp
  have h3 : qlt ((0 : ℚ)) (1 / 2) = true := by with_unfolding_all rfl
  rw [roundHalfEven, h1]
  simp only [sub_self, h3, if_true]

theorem parseDec_shape (a x y : Nat) :
    parseDec (natToChars a ++ '.' :: [digitChar x, digitChar y]) =
      (a : ℚ) + ((10 * (x % 10) + y % 10 : ℕ) : ℚ) / 100 := by
  have hdz : ∀ c, ('.' :: [digitChar x, digitChar y]).head? = some c → c.isDigit = false := by
    intro c hc
    injection hc with hc
    rw [← hc]
    decide
  rw [parseDec]
  rw [tw_app_stop Char.isDigit _ _ hdz, takeWhile_all Char.isDigit _ (natToChars_digits a),
    dw_app_stop Char.isDigit _ _ hdz, dropWhile_nil_all Char.isDigit _ (natToChars_digits a),
    List.nil_append]
  split
  · next r2 heq =>
    injection heq with h1 h2
    rw [← h2]
    rw [takeWhile_all Char.isDigit [digitChar x, digitChar y]
        (by intro c hc
            rcases List.mem_cons.mp hc with h1 | h1
            · rw [h1]; exact digitChar_isDigit x
            · rw [List.mem_singleton.mp h1]; exact digitChar_isDigit y),
      natOfDigits_natToChars, natOfDigits_two]
    norm_num
  · next hne =>
    exact absurd rfl (hne [digitChar x, digitChar y])

theorem parseDec_value (n : Nat) :
    parseDec (natToChars (n / 100) ++
        '.' :: [digitChar (n / 10 % 10), digitChar (n % 10)]) = (n : ℚ) / 100 := by
  rw [parseDec_shape]
  have harith : 100 * (n / 100) + (10 * (n / 10 % 10 % 10) + n % 10 % 10) = n := by omega
  have harith2 : 100 * (n / 100) + (10 * (n / 10 % 10) + n % 10) = n := by omega
  have hc := congrArg (fun m : ℕ => (m : ℚ)) harith
  have hc2 := congrArg (fun m : ℕ => (m : ℚ)) harith2
  push_cast at hc hc2
  field_simp
  linarith

theorem fmt2_two_dec (k : ℤ) :
    fmt2 ((k : ℚ) / 100) = (if k < 0 then ['-'] else []) ++
      (natToChars (k.natAbs / 100) ++
        '.' :: [digitChar (k.natAbs / 10 % 10), digitChar (k.natAbs % 10)]) := by
  have hr : roundHalfEven ((k : ℚ) / 100 * 100) = k := by
    rw [show ((k : ℚ) / 100 * 100) = (k : ℚ) from div_mul_cancel₀ _ (by norm_num)]
    exact roundHalfEven_int k
  rw [fmt2, hr]
  simp [List.append_assoc]

theorem parseNum_head_digit (s : List Char) (hne : s ≠ [])
    (hd : ∀ c, s.head? = some c → c.isDigit = true) : parseNum s = parseDec s := by
  cases s with
  | nil => exact absurd rfl hne
  | cons c t =>
    apply parseNum_cons_ne
    have := hd c (by rw [List.head?_cons])
    exact digit_ne c '-' this (by decide)

theorem parse_fmt2 (k : ℤ) : parseNum (fmt2 ((k : ℚ) / 100)) = (k : ℚ) / 100 := by
  rw [fmt2_two_dec]
  by_cases hk : k < 0
  · rw [if_pos hk, List.singleton_append, parseNum_neg, parseDec_value]
    have hq : ((k.natAbs : ℕ) : ℚ) = -(k : ℚ) := by
      rw [Int.cast_natAbs, abs_of_neg hk]
      push_cast
      ring
    rw [hq]
    ring
  · rw [if_neg hk, List.nil_append]
    rw [parseNum_head_digit _ ?_ ?_, parseDec_value]
    · have hq : ((k.natAbs : ℕ) : ℚ) = (k : ℚ) := by
        rw [Int.cast_natAbs, abs_of_nonneg (le_of_not_lt hk)]
      rw [hq]
    · intro hnil
      exact natToChars_ne_nil _ (List.append_eq_nil.mp hnil).1
    · intro c hc
      cases hnc : natToChars (k.natAbs / 100) with
      | nil => exact absurd hnc (natToChars_ne_nil _)
      | cons c0 t0 =>
        rw [hnc, List.cons_append, List.head?_cons] at hc
        injection hc with hc
        rw [← hc]
        exact natToChars_digits _ c0 (by rw [hnc]; simp)

theorem numTokU_of_shape (ip : List Char) (d1 d2 : Char) (B : List Char)
    (hip : ip ≠ []) (hipd : ∀ c ∈ ip, c.isDigit = true)
    (hd1 : d1.isDigit = true) (hd2 : d2.isDigit = true)
    (hB : ∀ c, B.head? = some c → c.isDigit = false) :
    numTokU ((ip ++ ['.', d1, d2]) ++ B) = some (ip ++ ['.', d1, d2], B) := by
  obtain ⟨i0, ip2, hi0⟩ : ∃ i0 ip2, ip = i0 :: ip2 := by
    cases ip with
    | nil => exact absurd rfl hip
    | cons a b => exact ⟨a, b, rfl⟩
  subst hi0
  have hassoc : ((i0 :: ip2) ++ ['.', d1, d2]) ++ B =
      (i0 :: ip2) ++ ('.' :: ([d1, d2] ++ B)) := by simp
  have hdot : ∀ c, ('.' :: ([d1, d2] ++ B)).head? = some c → c.isDigit = false := by
    intro c hc
    injection hc with hc
    rw [← hc]
    decide
  have hdig1 : digits1 (((i0 :: ip2) ++ ['.', d1, d2]) ++ B) =
      some (i0 :: ip2, '.' :: ([d1, d2] ++ B)) := by
    rw [digits1, hassoc,
      tw_app_stop Char.isDigit _ _ hdot, takeWhile_all Char.isDigit _ hipd,
      dw_app_stop Char.isDigit _ _ hdot, dropWhile_nil_all Char.isDigit _ hipd,
      List.nil_append]
  rw [numTokU, hdig1]
  dsimp only
  split
  · next r2 heq =>
    injection heq with h1 h2
    rw [← h2,
      tw_app_stop Char.isDigit [d1, d2] B hB,
      takeWhile_all Char.isDigit [d1, d2] (by
        intro c hc
        rcases List.mem_cons.mp hc with h3 | h3
        · rw [h3]; exact hd1
        · rw [List.mem_singleton.mp h3]; exact hd2),
      dw_app_stop Char.isDigit [d1, d2] B hB,
      dropWhile_nil_all Char.isDigit [d1, d2] (by
        intro c hc
        rcases List.mem_cons.mp hc with h3 | h3
        · rw [h3]; exact hd1
        · rw [List.mem_singleton.mp h3]; exact hd2),
      List.nil_append]
  · next hne =>
    exact absurd rfl (hne ([d1, d2] ++ B))

theorem numTok_of_shape (sgn ip : List Char) (d1 d2 : Char) (B : List Char)
    (hsgn : sgn = [] ∨ sgn = ['-']) (hip : ip ≠ []) (hipd : ∀ c ∈ ip, c.isDigit = true)
    (hd1 : d1.isDigit = true) (hd2 : d2.isDigit = true)
    (hB : ∀ c, B.head? = some c → c.isDigit = false) :
    numTok ((sgn ++ (ip ++ ['.', d1, d2])) ++ B) =
      some (sgn ++ (ip ++ ['.', d1, d2]), B) := by
  rcases hsgn with hsgn | hsgn
  · subst hsgn
    rw [List.nil_append]
    obtain ⟨i0, ip2, hi0⟩ : ∃ i0 ip2, ip = i0 :: ip2 := by
      cases ip with
      | nil => exact absurd rfl hip
      | cons a b => exact ⟨a, b, rfl⟩
    subst hi0
    rw [numTok, if_neg ?_]
    · exact numTokU_of_shape _ d1 d2 B hip hipd hd1 hd2 hB
    · intro hh
      have : ((i0 :: ip2 ++ ['.', d1, d2]) ++ B).head? = some i0 := by
        rw [List.cons_append, List.cons_append, List.head?_cons]
      rw [this] at hh
      injection hh with hh
      have := hipd i0 (by simp)
      rw [hh] at this
      exact absurd this (by decide)
  · subst hsgn
    rw [List.singleton_append, List.cons_append, numTok, List.head?_cons, if_pos rfl,
      show ('-' :: ((ip ++ ['.', d1, d2]) ++ B)).tail = (ip ++ ['.', d1, d2]) ++ B from rfl,
      numTokU_of_shape ip d1 d2 B hip hipd hd1 hd2 hB]

theorem fmt2_numTok (q : ℚ) (B : List Char)
    (hB : ∀ c, B.head? = some c → c.isDigit = false) :
    numTok (fmt2 q ++ B) = some (fmt2 q, B) := by
  obtain ⟨sgn, ip, d1, d2, hf, hsgn, hip, hipd, hd1, hd2⟩ := fmt2_shape q
  rw [hf]
  exact numTok_of_shape sgn ip d1 d2 B hsgn hip hipd hd1 hd2 hB

theorem fmt2_chars (q : ℚ) : ∀ c ∈ fmt2 q, c.isDigit = true ∨ c = '.' ∨ c = '-' := by
  obtain ⟨sgn, ip, d1, d2, hf, hsgn, _, hipd, hd1, hd2⟩ := fmt2_shape q
  rw [hf]
  intro c hc
  rcases List.mem_append.mp hc with h1 | h1
  · rcases hsgn with h2 | h2
    · rw [h2] at h1
      exact absurd h1 (by simp)
    · rw [h2] at h1
      right; right
      exact List.mem_singleton.mp h1
  · rcases List.mem_append.mp h1 with h2 | h2
    · left
      exact hipd c h2
    · rcases List.mem_cons.mp h2 with h3 | h3
      · right; left; exact h3
      · rcases List.mem_cons.mp h3 with h4 | h4
        · left; rw [h4]; exact hd1
        · left; rw [List.mem_singleton.mp h4]; exact hd2

theorem digit_not_space (c : Char) (h : c.isDigit = true) : pySpace c = false := by
  cases hps : pySpace c with
  | false => rfl
  | true =>
    exfalso
    rcases pySpace_cases c hps with h1 | h1 | h1 | h1 | h1 | h1 <;>
      (rw [h1] at h; exact absurd h (by decide))

theorem fmt2_head_not_space (q : ℚ) (B : List Char) :
    ∀ c, (fmt2 q ++ B).head? = some c → pySpace c = false := by
  obtain ⟨sgn, ip, d1, d2, hf, hsgn, hip, hipd, _, _⟩ := fmt2_shape q
  intro c hc
  rw [hf] at hc
  rcases hsgn with h2 | h2
  · subst h2
    rw [List.nil_append] at hc
    obtain ⟨i0, ip2, hi0⟩ : ∃ i0 ip2, ip = i0 :: ip2 := by
      cases ip with
      | nil => exact absurd rfl hip
      | cons a b => exact ⟨a, b, rfl⟩
    subst hi0
    rw [List.cons_append, List.cons_append, List.head?_cons] at hc
    injection hc with hc
    rw [← hc]
    exact digit_not_space i0 (hipd i0 (by simp))
  · subst h2
    rw [List.singleton_append, List.cons_append, List.head?_cons] at hc
    injection hc with hc
    rw [← hc]
    decide

theorem numlike_ne_t (n : List Char) (h : ∀ c ∈ n, c.isDigit = true ∨ c = '.' ∨ c = '-') :
    ∀ c ∈ n, c ≠ 't' := by
  intro c hc
  rcases h c hc with h1 | h1 | h1
  · exact digit_ne c 't' h1 (by decide)
  · rw [h1]; decide
  · rw [h1]; decide

theorem compute_two_dec (r : Nat) (tgt : List Char) (q : ℚ)
    (h : compute_mult r tgt = some q) : ∃ k : ℤ, q = (k : ℚ) / 100 := by
  obtain ⟨b, t, _, hq⟩ := compute_mult_some r tgt q h
  have hcore : ∃ k : ℤ, coreM b t r = (k : ℚ) / 100 := by
    rw [coreM, maxQfloor, pyRound2]
    by_cases hc : qle ((roundHalfEven
        ((b + (t - b) * minQ1 ((r : ℚ) / (MAX_ROW : ℚ))) * checkFactor r * 100) : ℚ) / 100)
        (1 / 100) = true
    · rw [if_pos hc]
      exact ⟨1, by norm_num⟩
    · rw [if_neg hc]
      exact ⟨roundHalfEven ((b + (t - b) * minQ1 ((r : ℚ) / (MAX_ROW : ℚ))) *
        checkFactor r * 100), rfl⟩
  obtain ⟨k, hk⟩ := hcore
  rw [hq, signApply]
  by_cases hng : tgt ∈ NEGATIVE_TARGETS
  · rw [if_pos hng, hk]
    exact ⟨-k, by push_cast; ring⟩
  · rw [if_neg hng, hk]
    exact ⟨k, rfl⟩

theorem searchTM_subMult (l tgt num : List Char) (q2 : ℚ)
    (hc : countSub mLit l ≤ 1) (hs : searchTM l = some (tgt, num)) :
    searchTM (subMultLine l (fmt2 q2)) = some (tgt, fmt2 q2) := by
  obtain ⟨P, z, hl, hz, hfail⟩ := searchTM_some_decomp l (tgt, num) hs
  obtain ⟨sp, y, hzeq, hsp, hwne, hwchars, hlz⟩ := tryTMAt_some_decomp z tgt num hz
  obtain ⟨v, sp2, rest, hy, hnl, hsp2, htm, hXnum⟩ := lazyMult_some_decomp y num hlz
  have hlA : l = (P ++ (tLit ++ (sp ++ (q1 :: (tgt ++ (q1 :: v)))))) ++
      (mLit ++ (sp2 ++ (num ++ rest))) := by
    rw [hl, hzeq, hy]
    simp [List.append_assoc]
  set A := P ++ (tLit ++ (sp ++ (q1 :: (tgt ++ (q1 :: v))))) with hA
  have hno : NoM A sp2 := by
    apply NoM_of_count
    have h1 : (A ++ (mLit ++ sp2)) ++ (num ++ rest) =
        A ++ (mLit ++ (sp2 ++ (num ++ rest))) := by
      simp [List.append_assoc]
    have h2 := countSub_le_append mLit (A ++ (mLit ++ sp2)) (num ++ rest)
    rw [h1, ← hlA] at h2
    omega
  have hrest_head : ∀ c, rest.head? = some c → c.isDigit = false :=
    numTok_rest_head (num ++ rest) num rest hXnum
  have hXnum2 : numTok (fmt2 q2 ++ rest) = some (fmt2 q2, rest) :=
    fmt2_numTok q2 rest hrest_head
  have htm2 : tryMultAt (mLit ++ (sp2 ++ (fmt2 q2 ++ rest))) =
      some (mLit ++ sp2, fmt2 q2, rest) :=
    tryMultAt_designated sp2 (fmt2 q2) rest hsp2 (fmt2_head_not_space q2 rest) hXnum2
  have hXt1 : ∀ c ∈ num, c ≠ 't' :=
    numlike_ne_t num (numTok_chars (num ++ rest) num rest hXnum)
  have hXt2 : ∀ c ∈ fmt2 q2, c ≠ 't' := numlike_ne_t (fmt2 q2) (fmt2_chars q2)
  have e1 := searchTM_pre A sp2 num rest hno htm hsp2 hXt1
  have e2 := searchTM_pre A sp2 (fmt2 q2) rest hno htm2 hsp2 hXt2
  have hsub : subMultLine l (fmt2 q2) = A ++ (mLit ++ (sp2 ++ (fmt2 q2 ++ rest))) := by
    rw [hlA]
    exact subMult_pre A sp2 num rest (fmt2 q2) hno htm
  rw [hlA, e1] at hs
  cases hsm : smShape A with
  | none =>
    exfalso
    have hb : tLit ++ (sp ++ (q1 :: (tgt ++ (q1 :: v)))) =
        't' :: ('a' :: 'r' :: 'g' :: 'e' :: 't' :: ':' ::
          (sp ++ (q1 :: (tgt ++ (q1 :: v))))) := by
      rw [tLit_exp]
      rfl
    have hshape : tmShape ('t' :: ('a' :: 'r' :: 'g' :: 'e' :: 't' :: ':' ::
        (sp ++ (q1 :: (tgt ++ (q1 :: v)))))) = some tgt := by
      rw [← hb]
      exact tmShape_designated sp tgt v hsp hwne hwchars hnl
    have hne2 := smShape_app_some 't' ('a' :: 'r' :: 'g' :: 'e' :: 't' :: ':' ::
      (sp ++ (q1 :: (tgt ++ (q1 :: v))))) tgt hshape P
    rw [← hb, ← hA] at hne2
    exact hne2 hsm
  | some w =>
    rw [hsm] at hs
    dsimp only at hs
    injection hs with hs
    injection hs with hs1 _
    rw [hsub, e2, hsm]
    dsimp only
    rw [hs1]

theorem tryDescAt_some_decomp (s g1 rest : List Char) (h : tryDescAt s = some (g1, rest)) :
    ∃ sp R, (∀ c ∈ sp, pySpace c = true) ∧ RegionShape R ∧
      s = eLit ++ (sp ++ (q1 :: (R ++ rest))) ∧ g1 = eLit ++ (sp ++ [q1]) := by
  rw [tryDescAt] at h
  cases hstrip : stripLit eLit s with
  | none => rw [hstrip] at h; exact absurd h (by simp)
  | some r1 =>
    rw [hstrip] at h
    dsimp only at h
    cases hdw : r1.dropWhile pySpace with
    | nil => rw [hdw] at h; exact absurd h (by simp)
    | cons c r3 =>
      rw [hdw] at h
      dsimp only at h
      by_cases hc : c = q1
      case neg => rw [if_neg hc] at h; exact absurd h (by simp)
      rw [if_pos hc] at h
      cases hr3 : r3 with
      | nil => rw [hr3] at h; exact absurd h (by simp)
      | cons sg r4 =>
        rw [hr3] at h
        dsimp only at h
        by_cases hsg : sg = '+' ∨ sg = '-'
        case neg => rw [if_neg hsg] at h; exact absurd h (by simp)
        rw [if_pos hsg] at h
        cases hd1 : digits1 r4 with
        | none => rw [hd1] at h; exact absurd h (by simp)
        | some pr =>
          obtain ⟨ds1, r5⟩ := pr
          rw [hd1] at h
          dsimp only at h
          obtain ⟨hr4eq, hds1ne, hds1d⟩ := digits1_decomp r4 ds1 r5 hd1
          have e1 : r1 = r1.takeWhile pySpace ++ (c :: r3) := by
            conv_lhs => rw [← List.takeWhile_append_dropWhile (p := pySpace) (l := r1)]
            rw [hdw]
          have hspw : ∀ cc ∈ r1.takeWhile pySpace, pySpace cc = true := by
            intro cc hcc
            exact mem_takeWhile_space cc r1 hcc
          split at h
          · next p rest2 heq6 =>
            by_cases hp : p = '%'
            case neg => rw [if_neg hp] at h; exact absurd h (by simp)
            rw [if_pos hp] at h
            injection h with h
            injection h with hg1 hrest
            cases hr5 : r5 with
            | nil =>
              rw [hr5] at heq6
              dsimp only at heq6
              exact absurd heq6 (by simp)
            | cons p5 r5t =>
              rw [hr5] at heq6
              by_cases hp5 : p5 = '.'
              · subst hp5
                split at heq6
                · next r5a heq7 =>
                  injection heq7 with _ heq7b
                  subst heq7b
                  cases hd2 : digits1 r5t with
                  | none =>
                    rw [hd2] at heq6
                    dsimp only at heq6
                    injection heq6 with he1 _
                    rw [← he1] at hp
                    exact absurd hp (by decide)
                  | some pq =>
                    obtain ⟨ds2, r5b⟩ := pq
                    rw [hd2] at heq6
                    dsimp only at heq6
                    obtain ⟨hr5teq, hds2ne, hds2d⟩ := digits1_decomp r5t ds2 r5b hd2
                    refine ⟨r1.takeWhile pySpace, sg :: ((ds1 ++ '.' :: ds2) ++ ['%']),
                      hspw, ⟨sg, ds1 ++ '.' :: ds2, rfl, hsg, ?_⟩, ?_, ?_⟩
                    · intro cc hcc
                      rcases List.mem_append.mp hcc with h2 | h2
                      · left; exact hds1d cc h2
                      · rcases List.mem_cons.mp h2 with h3 | h3
                        · right; exact h3
                        · left; exact hds2d cc h3
                    · rw [(stripLit_iff eLit s r1).mp hstrip]
                      congr 1
                      conv_lhs => rw [e1, hr3, hr4eq, hr5, hr5teq, heq6]
                      rw [hc, hp, hrest]
                      simp [List.append_assoc]
                    · rw [← hg1]
                      simp [List.append_assoc]
                · next hne7 =>
                  exact absurd rfl (hne7 r5t)
              · split at heq6
                · next r5a heq7 =>
                  injection heq7 with he1 _
                  exact absurd he1 hp5
                · next hne7 =>
                  injection heq6 with he1 he2
                  refine ⟨r1.takeWhile pySpace, sg :: (ds1 ++ ['%']),
                    hspw, ⟨sg, ds1, rfl, hsg, ?_⟩, ?_, ?_⟩
                  · intro cc hcc
                    left
                    exact hds1d cc hcc
                  · rw [(stripLit_iff eLit s r1).mp hstrip]
                    congr 1
                    conv_lhs => rw [e1, hr3, hr4eq, hr5]
                    rw [hc, he1, he2, hp, hrest]
                    simp [List.append_assoc]
                  · rw [← hg1]
                    simp [List.append_assoc]
          · exact absurd h (by simp)

theorem descSubLine_cases (sg : Char) (ps : List Char) : ∀ l : List Char,
    descSubLine l sg ps = l ∨
    ∃ pre sp R suf, (∀ c ∈ sp, pySpace c = true) ∧ RegionShape R ∧
      l = pre ++ dctx sp R suf ∧
      descSubLine l sg ps = pre ++ dctx sp (sg :: (ps ++ ['%'])) suf := by
  intro l
  induction l with
  | nil => left; rfl
  | cons c t ih =>
    rw [descSubLine]
    cases htry : tryDescAt (c :: t) with
    | some g =>
      obtain ⟨g1, rest⟩ := g
      right
      obtain ⟨sp, R, hsp, hR, hs, hg1⟩ := tryDescAt_some_decomp (c :: t) g1 rest htry
      refine ⟨[], sp, R, rest, hsp, hR, by rw [List.nil_append, hs, dctx], ?_⟩
      rw [List.nil_append, dctx, hg1]
      simp [List.append_assoc]
    | none =>
      rcases ih with h | ⟨pre, sp, R, suf, hsp, hR, hl, hsub⟩
      · left
        rw [h]
      · right
        refine ⟨c :: pre, sp, R, suf, hsp, hR, ?_, ?_⟩
        · rw [List.cons_append, ← hl]
        · rw [List.cons_append, ← hsub]

theorem rLit_len : rLit.length = 4 := by decide

theorem eLit_len : eLit.length = 18 := by decide

theorem eLit_head (Z : List Char) : (eLit ++ Z).head? = some 'e' := by
  rw [eLit_exp]
  rfl

theorem eLit_head_not_space : ∀ cc, ∀ Z : List Char,
    (eLit ++ Z).head? = some cc → pySpace cc = false := by
  intro cc Z hcc
  rw [eLit_head] at hcc
  injection hcc with hcc
  rw [← hcc]
  decide

theorem eLit_head_not_digit : ∀ cc, ∀ Z : List Char,
    (eLit ++ Z).head? = some cc → Char.isDigit cc = false := by
  intro cc Z hcc
  rw [eLit_head] at hcc
  injection hcc with hcc
  rw [← hcc]
  decide

theorem tryRow_eLit_ctx (x Z : List Char) :
    tryRowAt (x ++ (eLit ++ Z)) = tryRowAt x := by
  cases x with
  | nil =>
    rw [List.nil_append]
    have h1 : stripLit rLit (eLit ++ Z) = none := by
      apply stripLit_none
      intro r2 he
      rw [eLit_exp, rLit_exp, List.cons_append] at he
      injection he with h2 _
      exact absurd h2 (by decide)
    have h2 : stripLit rLit ([] : List Char) = none := by
      rw [rLit_exp]
      rfl
    rw [tryRowAt, h1, tryRowAt, h2]
  | cons c x' =>
    rcases stripLit_cross rLit (c :: x') with ⟨x1, hx1, hsome⟩ | ⟨lit1, hl1, hne, hs⟩ | hn
    · have hxstrip : stripLit rLit (c :: x') = some x1 := by
        have h0 := hsome []
        rwa [List.append_nil, List.append_nil] at h0
      rw [tryRowAt, hsome (eLit ++ Z), tryRowAt, hxstrip]
      dsimp only
      rw [dw_app pySpace x1 (eLit ++ Z)]
      cases hx1c : x1.dropWhile pySpace with
      | nil =>
        rw [if_pos rfl,
          dropWhile_self_of_head pySpace _ (fun cc hcc => eLit_head_not_space cc Z hcc)]
        have hd : digits1 (eLit ++ Z) = none := by
          rw [digits1,
            takeWhile_nil_of_head Char.isDigit _ (fun cc hcc => eLit_head_not_digit cc Z hcc)]
        rw [hd]
        rfl
      | cons c2 x2 =>
        rw [if_neg (by simp), List.cons_append]
        cases htw : (c2 :: x2).takeWhile Char.isDigit with
        | nil =>
          have hdL : digits1 (c2 :: (x2 ++ (eLit ++ Z))) = none := by
            rw [digits1, show c2 :: (x2 ++ (eLit ++ Z)) = (c2 :: x2) ++ (eLit ++ Z) from rfl,
              tw_app_stop Char.isDigit _ _ (fun cc hcc => eLit_head_not_digit cc Z hcc), htw]
          have hdR : digits1 (c2 :: x2) = none := by
            rw [digits1, htw]
          rw [hdL, hdR]
        | cons d ds =>
          have hdL : digits1 (c2 :: (x2 ++ (eLit ++ Z))) =
              some (d :: ds, (c2 :: (x2 ++ (eLit ++ Z))).dropWhile Char.isDigit) := by
            rw [digits1, show c2 :: (x2 ++ (eLit ++ Z)) = (c2 :: x2) ++ (eLit ++ Z) from rfl,
              tw_app_stop Char.isDigit _ _ (fun cc hcc => eLit_head_not_digit cc Z hcc), htw]
          have hdR : digits1 (c2 :: x2) = some (d :: ds, (c2 :: x2).dropWhile Char.isDigit) := by
            rw [digits1, htw]
          rw [hdL, hdR]
    · have hlen : lit1.length ≤ 3 := by
        have h0 := congrArg List.length hl1
        rw [rLit_len, List.length_append, List.length_cons] at h0
        omega
      have hstripL : stripLit rLit ((c :: x') ++ (eLit ++ Z)) = none := by
        rw [hs]
        apply stripLit_none
        intro r2 he
        exact overlap_absurd2 rLit eLit 3 ofree_re (c :: x') lit1 Z r2 hl1
          he.symm hne hlen (by rw [eLit_len]; omega)
      have hstripR : stripLit rLit (c :: x') = none := by
        have h3 := hs []
        rw [List.append_nil] at h3
        rw [h3]
        cases hl : lit1 with
        | nil => exact absurd hl hne
        | cons a b => rfl
      rw [tryRowAt, hstripL, tryRowAt, hstripR]
    · have hn2 : stripLit rLit (c :: x') = none := by
        have h3 := hn []
        rwa [List.append_nil] at h3
      rw [tryRowAt, hn (eLit ++ Z), tryRowAt, hn2]

theorem searchRowGo_dctx_base (pw : Bool) (sp R suf : List Char)
    (hsp : ∀ c ∈ sp, pySpace c = true) (hR : RegionShape R) :
    searchRowGo pw (dctx sp R suf) = searchRowGo false suf := by
  rw [dctx, searchRow_eLit pw (sp ++ (q1 :: (R ++ suf))),
    searchRowGo_skip sp (fun c hc => pySpace_ne c 'r' (hsp c hc) (by decide)) false
      (q1 :: (R ++ suf)),
    foldl_space sp hsp,
    searchRowGo_step false q1 (R ++ suf) (Or.inr (tryRow_none1 q1 _ (by decide))),
    show wordChar q1 = false from by decide,
    searchRowGo_skip R (region_ne_r R hR) false suf, region_foldl R hR false]

theorem searchRowGo_dctx : ∀ (x : List Char) (pw : Bool) (sp R R2 suf : List Char),
    (∀ c ∈ sp, pySpace c = true) → RegionShape R → RegionShape R2 →
    searchRowGo pw (x ++ dctx sp R suf) = searchRowGo pw (x ++ dctx sp R2 suf) := by
  intro x
  induction x with
  | nil =>
    intro pw sp R R2 suf hsp hR hR2
    rw [List.nil_append, List.nil_append, searchRowGo_dctx_base pw sp R suf hsp hR,
      searchRowGo_dctx_base pw sp R2 suf hsp hR2]
  | cons c x' ih =>
    intro pw sp R R2 suf hsp hR hR2
    rw [List.cons_append, List.cons_append, searchRowGo, searchRowGo]
    have hrow : tryRowAt (c :: (x' ++ dctx sp R suf)) =
        tryRowAt (c :: (x' ++ dctx sp R2 suf)) := by
      rw [show c :: (x' ++ dctx sp R suf) = (c :: x') ++ (eLit ++ (sp ++ (q1 :: (R ++ suf))))
          from by rw [dctx]; rfl,
        show c :: (x' ++ dctx sp R2 suf) = (c :: x') ++ (eLit ++ (sp ++ (q1 :: (R2 ++ suf))))
          from by rw [dctx]; rfl,
        tryRow_eLit_ctx, tryRow_eLit_ctx]
    rw [hrow]
    by_cases hb : pw = true
    · rw [if_pos hb]
      dsimp only
      exact ih (wordChar c) sp R R2 suf hsp hR hR2
    · rw [if_neg hb]
      cases htr : tryRowAt (c :: (x' ++ dctx sp R2 suf)) with
      | some n => rfl
      | none =>
        dsimp only
        exact ih (wordChar c) sp R R2 suf hsp hR hR2

theorem searchRowLine_descSub (l : List Char) (sg : Char) (ps : List Char)
    (hsg : sg = '+' ∨ sg = '-') (hps : ∀ c ∈ ps, c.isDigit = true ∨ c = '.') :
    searchRowLine (descSubLine l sg ps) = searchRowLine l := by
  rcases descSubLine_cases sg ps l with h | ⟨pre, sp, R, suf, hsp, hR, hl, hsub⟩
  · rw [h]
  · rw [hsub]
    conv_rhs => rw [hl]
    rw [searchRowLine, searchRowLine]
    exact searchRowGo_dctx pre false sp (sg :: (ps ++ ['%'])) R suf hsp
      ⟨sg, ps, rfl, hsg, hps⟩ hR

theorem eLit_twW : eLit.takeWhile wordChar = "effectDescription".data := by decide

theorem eLit_dwW : eLit.dropWhile wordChar = [':'] := by decide

theorem eword_ne : "effectDescription".data ≠ [] := by decide

theorem tryMult_dctx (x sp R R2 suf : List Char) :
    (tryMultAt (x ++ dctx sp R suf)).map (fun t => (t.1, t.2.1)) =
    (tryMultAt (x ++ dctx sp R2 suf)).map (fun t => (t.1, t.2.1)) := by
  cases x with
  | nil =>
    have h1 : ∀ (Rv : List Char), stripLit mLit (dctx sp Rv suf) = none := by
      intro Rv
      rw [dctx]
      apply stripLit_none
      intro r2 he
      rw [eLit_exp, mLit_exp, List.cons_append] at he
      injection he with h2 _
      exact absurd h2 (by decide)
    rw [List.nil_append, List.nil_append, tryMultAt, h1 R, tryMultAt, h1 R2]
  | cons c x' =>
    rcases stripLit_cross mLit (c :: x') with ⟨x1, hx1, hsome⟩ | ⟨lit1, hl1, hne, hs⟩ | hn
    · rw [tryMultAt, hsome (dctx sp R suf), tryMultAt, hsome (dctx sp R2 suf)]
      dsimp only
      have hsp_stop : ∀ (Rv : List Char), ∀ cc, (dctx sp Rv suf).head? = some cc →
          pySpace cc = false := by
        intro Rv cc hcc
        rw [dctx] at hcc
        exact eLit_head_not_space cc _ hcc
      have hnum_stop : ∀ (Rv : List Char), ∀ cc, (dctx sp Rv suf).head? = some cc →
          cc.isDigit = false ∧ cc ≠ '.' ∧ cc ≠ '-' := by
        intro Rv cc hcc
        rw [dctx, eLit_head] at hcc
        injection hcc with hcc
        rw [← hcc]
        exact ⟨by decide, by decide, by decide⟩
      rw [dw_app_stop pySpace x1 (dctx sp R suf) (hsp_stop R),
        dw_app_stop pySpace x1 (dctx sp R2 suf) (hsp_stop R2),
        tw_app_stop pySpace x1 (dctx sp R suf) (hsp_stop R),
        tw_app_stop pySpace x1 (dctx sp R2 suf) (hsp_stop R2),
        numTok_app_stop (x1.dropWhile pySpace) (dctx sp R suf) (hnum_stop R),
        numTok_app_stop (x1.dropWhile pySpace) (dctx sp R2 suf) (hnum_stop R2)]
      cases hnt : numTok (x1.dropWhile pySpace) with
      | none => rfl
      | some p =>
        obtain ⟨n, r⟩ := p
        rfl
    · have hlen : lit1.length ≤ 10 := by
        have h0 := congrArg List.length hl1
        rw [mLit_len, List.length_append, List.length_cons] at h0
        omega
      have hstrip : ∀ (Rv : List Char), stripLit mLit ((c :: x') ++ dctx sp Rv suf) = none := by
        intro Rv
        rw [hs]
        apply stripLit_none
        intro r2 he
        rw [dctx] at he
        exact overlap_absurd2 mLit eLit 10 ofree_me (c :: x') lit1
          (sp ++ (q1 :: (Rv ++ suf))) r2 hl1 he.symm hne hlen (by rw [eLit_len]; omega)
      rw [tryMultAt, hstrip R, tryMultAt, hstrip R2]
    · rw [tryMultAt, hn (dctx sp R suf), tryMultAt, hn (dctx sp R2 suf)]

theorem lazy_sp : ∀ (sp Z : List Char), (∀ c ∈ sp, pySpace c = true) →
    lazyMult (sp ++ Z) = if '\n' ∈ sp then none else lazyMult Z := by
  intro sp
  induction sp with
  | nil =>
    intro Z _
    rw [List.nil_append, if_neg (by simp)]
  | cons c sp' ih =>
    intro Z hsp
    rw [List.cons_append, lazyMult,
      tryMult_none1 c (sp' ++ Z) (pySpace_ne c 'm' (hsp c (by simp)) (by decide))]
    dsimp only
    by_cases hc : c = '\n'
    · rw [if_pos hc, if_pos (by rw [hc]; exact List.mem_cons_self _ _)]
    · rw [if_neg hc, ih Z (fun d hd => hsp d (by simp [hd]))]
      by_cases hv : '\n' ∈ sp'
      · rw [if_pos hv, if_pos (List.mem_cons_of_mem c hv)]
      · rw [if_neg hv, if_neg ?_]
        intro hmem
        rcases List.mem_cons.mp hmem with h1 | h1
        · exact hc h1.symm
        · exact hv h1

theorem lazy_dctx : ∀ (y sp R R2 suf : List Char), (∀ c ∈ sp, pySpace c = true) →
    RegionShape R → RegionShape R2 →
    lazyMult (y ++ dctx sp R suf) = lazyMult (y ++ dctx sp R2 suf) := by
  intro y
  induction y with
  | nil =>
    intro sp R R2 suf hsp hR hR2
    have hbase : ∀ (Rv : List Char), RegionShape Rv →
        lazyMult (dctx sp Rv suf) = if '\n' ∈ sp then none else lazyMult suf := by
      intro Rv hRv
      rw [dctx, lazyMult_skip eLit _ (by decide), lazy_sp sp _ hsp]
      by_cases hv : '\n' ∈ sp
      · rw [if_pos hv, if_pos hv]
      · rw [if_neg hv, if_neg hv,
          lazyMult_cons_none q1 (Rv ++ suf) (tryMult_none1 q1 _ (by decide)) (by decide),
          lazyMult_skip Rv suf (region_ne_m_nl Rv hRv)]
    rw [List.nil_append, List.nil_append, hbase R hR, hbase R2 hR2]
  | cons c y' ih =>
    intro sp R R2 suf hsp hR hR2
    rw [List.cons_append, List.cons_append, lazyMult, lazyMult]
    have hmap := tryMult_dctx (c :: y') sp R R2 suf
    rw [List.cons_append, List.cons_append] at hmap
    cases h1 : tryMultAt (c :: (y' ++ dctx sp R suf)) with
    | some p1 =>
      cases h2 : tryMultAt (c :: (y' ++ dctx sp R2 suf)) with
      | some p2 =>
        rw [h1, h2] at hmap
        obtain ⟨g1a, pp1⟩ := p1
        obtain ⟨n1, r1a⟩ := pp1
        obtain ⟨g2a, pp2⟩ := p2
        obtain ⟨n2, r2a⟩ := pp2
        dsimp only at hmap ⊢
        injection hmap with hmap
        injection hmap with _ hnum
        have hnum2 : n1 = n2 := by simpa using hnum
        rw [hnum2]
      | none =>
        rw [h1, h2] at hmap
        exact absurd hmap (by simp)
    | none =>
      cases h2 : tryMultAt (c :: (y' ++ dctx sp R2 suf)) with
      | some p2 =>
        rw [h1, h2] at hmap
        exact absurd hmap (by simp)
      | none =>
        dsimp only
        by_cases hc : c = '\n'
        · rw [if_pos hc, if_pos hc]
        · rw [if_neg hc, if_neg hc]
          exact ih sp R R2 suf hsp hR hR2

theorem tryTM_dctx (x sp R R2 suf : List Char) (hsp : ∀ c ∈ sp, pySpace c = true)
    (hR : RegionShape R) (hR2 : RegionShape R2) :
    tryTMAt (x ++ dctx sp R suf) = tryTMAt (x ++ dctx sp R2 suf) := by
  cases x with
  | nil =>
    have h1 : ∀ (Rv : List Char), stripLit tLit (dctx sp Rv suf) = none := by
      intro Rv
      rw [dctx]
      apply stripLit_none
      intro r2 he
      rw [eLit_exp, tLit_exp, List.cons_append] at he
      injection he with h2 _
      exact absurd h2 (by decide)
    rw [List.nil_append, List.nil_append, tryTMAt, h1 R, tryTMAt, h1 R2]
  | cons c x' =>
    rcases stripLit_cross tLit (c :: x') with ⟨x1, hx1, hsome⟩ | ⟨lit1, hl1, hne, hs⟩ | hn
    · rw [tryTMAt, hsome (dctx sp R suf), tryTMAt, hsome (dctx sp R2 suf)]
      dsimp only
      have hsp_stop : ∀ (Rv : List Char), ∀ cc, (dctx sp Rv suf).head? = some cc →
          pySpace cc = false := by
        intro Rv cc hcc
        rw [dctx] at hcc
        exact eLit_head_not_space cc _ hcc
      rw [dw_app pySpace x1 (dctx sp R suf), dw_app pySpace x1 (dctx sp R2 suf)]
      cases hx1c : x1.dropWhile pySpace with
      | nil =>
        rw [if_pos rfl, if_pos rfl,
          dropWhile_self_of_head pySpace _ (hsp_stop R),
          dropWhile_self_of_head pySpace _ (hsp_stop R2)]
        have hhead : ∀ (Rv : List Char), (dctx sp Rv suf).head? = some 'e' := by
          intro Rv
          rw [dctx]
          exact eLit_head _
        have hA := hhead R
        have hB := hhead R2
        cases hmA : dctx sp R suf with
        | nil =>
          rw [hmA] at hA
          exact absurd hA (by simp)
        | cons m0 t0 =>
          rw [hmA, List.head?_cons] at hA
          injection hA with hA
          cases hmB : dctx sp R2 suf with
          | nil =>
            rw [hmB] at hB
            exact absurd hB (by simp)
          | cons m1 t1 =>
            rw [hmB, List.head?_cons] at hB
            injection hB with hB
            dsimp only
            rw [if_neg (by rw [hA]; decide), if_neg (by rw [hB]; decide)]
      | cons c2 x2 =>
        rw [if_neg (by simp), if_neg (by simp), List.cons_append, List.cons_append]
        dsimp only
        by_cases hc2 : c2 = q1
        case neg => rw [if_neg hc2, if_neg hc2]
        rw [if_pos hc2, if_pos hc2,
          tw_app wordChar x2 (dctx sp R suf), tw_app wordChar x2 (dctx sp R2 suf)]
        cases hx2c : x2.dropWhile wordChar with
        | nil =>
          rw [if_pos rfl, if_pos rfl]
          have htwD : ∀ (Rv : List Char),
              (dctx sp Rv suf).takeWhile wordChar = "effectDescription".data := by
            intro Rv
            rw [dctx, tw_app wordChar eLit _, if_neg (by rw [eLit_dwW]; simp), eLit_twW]
          rw [htwD R, htwD R2]
          cases hw : x2 ++ "effectDescription".data with
          | nil => exact absurd (List.append_eq_nil.mp hw).2 eword_ne
          | cons w0 w1 =>
            dsimp only
            rw [dw_app wordChar x2 (dctx sp R suf), dw_app wordChar x2 (dctx sp R2 suf),
              hx2c, if_pos rfl, if_pos rfl]
            have hdwD : ∀ (Rv : List Char),
                (dctx sp Rv suf).dropWhile wordChar = ':' :: (sp ++ (q1 :: (Rv ++ suf))) := by
              intro Rv
              rw [dctx, dw_app wordChar eLit _, if_neg (by rw [eLit_dwW]; simp), eLit_dwW]
              rfl
            rw [hdwD R, hdwD R2]
            dsimp only
            rw [if_neg (by decide), if_neg (by decide)]
        | cons d2 x3 =>
          rw [if_neg (by simp), if_neg (by simp)]
          cases hxt : x2.takeWhile wordChar with
          | nil => rfl
          | cons w0 w1 =>
            dsimp only
            rw [dw_app wordChar x2 (dctx sp R suf), dw_app wordChar x2 (dctx sp R2 suf), hx2c,
              if_neg (by simp), if_neg (by simp), List.cons_append, List.cons_append]
            dsimp only
            by_cases hd2 : d2 = q1
            case neg => rw [if_neg hd2, if_neg hd2]
            rw [if_pos hd2, if_pos hd2, lazy_dctx x3 sp R R2 suf hsp hR hR2]
    · have hlen : lit1.length ≤ 6 := by
        have h0 := congrArg List.length hl1
        rw [tLit_len, List.length_append, List.length_cons] at h0
        omega
      have hstrip : ∀ (Rv : List Char),
          stripLit tLit ((c :: x') ++ dctx sp Rv suf) = none := by
        intro Rv
        rw [hs]
        apply stripLit_none
        intro r2 he
        rw [dctx] at he
        exact overlap_absurd2 tLit eLit 6 ofree_te (c :: x') lit1
          (sp ++ (q1 :: (Rv ++ suf))) r2 hl1 he.symm hne hlen (by rw [eLit_len]; omega)
      rw [tryTMAt, hstrip R, tryTMAt, hstrip R2]
    · rw [tryTMAt, hn (dctx sp R suf), tryTMAt, hn (dctx sp R2 suf)]

theorem searchTM_dctx : ∀ (x sp R R2 suf : List Char), (∀ c ∈ sp, pySpace c = true) →
    RegionShape R → RegionShape R2 →
    searchTM (x ++ dctx sp R suf) = searchTM (x ++ dctx sp R2 suf) := by
  intro x
  induction x with
  | nil =>
    intro sp R R2 suf hsp hR hR2
    have hbase : ∀ (Rv : List Char), RegionShape Rv →
        searchTM (dctx sp Rv suf) = searchTM suf := by
      intro Rv hRv
      rw [dctx, searchTM_eLit,
        searchTM_skip sp _ (fun c hc => pySpace_ne c 't' (hsp c hc) (by decide)),
        searchTM_cons_none q1 _ (tryTM_none1 q1 _ (by decide)),
        searchTM_skip Rv suf (region_ne_t Rv hRv)]
    rw [List.nil_append, List.nil_append, hbase R hR, hbase R2 hR2]
  | cons c x' ih =>
    intro sp R R2 suf hsp hR hR2
    have htm := tryTM_dctx (c :: x') sp R R2 suf hsp hR hR2
    rw [List.cons_append, List.cons_append] at htm
    rw [List.cons_append, List.cons_append, searchTM, searchTM, htm]
    cases h2 : tryTMAt (c :: (x' ++ dctx sp R2 suf)) with
    | some res => rfl
    | none =>
      dsimp only
      exact ih sp R R2 suf hsp hR hR2

theorem searchTM_descSub (l : List Char) (sg : Char) (ps : List Char)
    (hsg : sg = '+' ∨ sg = '-') (hps : ∀ c ∈ ps, c.isDigit = true ∨ c = '.') :
    searchTM (descSubLine l sg ps) = searchTM l := by
  rcases descSubLine_cases sg ps l with h | ⟨pre, sp, R, suf, hsp, hR, hl, hsub⟩
  · rw [h]
  · rw [hsub]
    conv_rhs => rw [hl]
    exact searchTM_dctx pre sp (sg :: (ps ++ ['%'])) R suf hsp ⟨sg, ps, rfl, hsg, hps⟩ hR

theorem DescStar_refl (l : List Char) : DescStar l l := ⟨[], by simp, rfl⟩

theorem DescStar_snoc (l l2 : List Char) (sg : Char) (ps : List Char)
    (h : DescStar l l2) (hsg : sg = '+' ∨ sg = '-')
    (hps : ∀ c ∈ ps, c.isDigit = true ∨ c = '.') :
    DescStar l (descSubLine l2 sg ps) := by
  obtain ⟨ops, hops, hfold⟩ := h
  refine ⟨ops ++ [(sg, ps)], ?_, ?_⟩
  · intro op hop
    rcases List.mem_append.mp hop with h1 | h1
    · exact hops op h1
    · rw [List.mem_singleton.mp h1]
      exact ⟨hsg, hps⟩
  · rw [List.foldl_append, ← hfold]
    rfl

theorem DescStar_trans (a b c : List Char) (h1 : DescStar a b) (h2 : DescStar b c) :
    DescStar a c := by
  obtain ⟨ops1, hops1, hf1⟩ := h1
  obtain ⟨ops2, hops2, hf2⟩ := h2
  refine ⟨ops1 ++ ops2, ?_, ?_⟩
  · intro op hop
    rcases List.mem_append.mp hop with h1 | h1
    · exact hops1 op h1
    · exact hops2 op h1
  · rw [List.foldl_append, ← hf1, ← hf2]

theorem searchTM_fold (ops : List (Char × List Char)) : ∀ l : List Char,
    (∀ op ∈ ops, (op.1 = '+' ∨ op.1 = '-') ∧ ∀ c ∈ op.2, c.isDigit = true ∨ c = '.') →
    searchTM (ops.foldl (fun acc op => descSubLine acc op.1 op.2) l) = searchTM l := by
  induction ops with
  | nil =>
    intro l _
    rfl
  | cons op rest ih =>
    intro l hops
    rw [List.foldl_cons,
      ih (descSubLine l op.1 op.2) (fun o ho => hops o (by simp [ho])),
      searchTM_descSub l op.1 op.2 (hops op (by simp)).1 (hops op (by simp)).2]

theorem searchTM_descStar (l l2 : List Char) (h : DescStar l l2) :
    searchTM l2 = searchTM l := by
  obtain ⟨ops, hops, hfold⟩ := h
  rw [hfold]
  exact searchTM_fold ops l hops

theorem searchRow_fold (ops : List (Char × List Char)) : ∀ l : List Char,
    (∀ op ∈ ops, (op.1 = '+' ∨ op.1 = '-') ∧ ∀ c ∈ op.2, c.isDigit = true ∨ c = '.') →
    searchRowLine (ops.foldl (fun acc op => descSubLine acc op.1 op.2) l) =
      searchRowLine l := by
  induction ops with
  | nil =>
    intro l _
    rfl
  | cons op rest ih =>
    intro l hops
    rw [List.foldl_cons,
      ih (descSubLine l op.1 op.2) (fun o ho => hops o (by simp [ho])),
      searchRowLine_descSub l op.1 op.2 (hops op (by simp)).1 (hops op (by simp)).2]

theorem searchRow_descStar (l l2 : List Char) (h : DescStar l l2) :
    searchRowLine l2 = searchRowLine l := by
  obtain ⟨ops, hops, hfold⟩ := h
  rw [hfold]
  exact searchRow_fold ops l hops

theorem fmt_pct_chars (v : ℚ) : ∀ c ∈ fmt_pct v, c.isDigit = true ∨ c = '.' := by
  rw [fmt_pct]
  split
  · intro c hc
    left
    exact natToChars_digits _ c hc
  · intro c hc
    rcases List.mem_append.mp hc with h1 | h1
    · left
      exact natToChars_digits _ c h1
    · rcases List.mem_cons.mp h1 with h2 | h2
      · right
        exact h2
      · left
        rw [List.mem_singleton.mp h2]
        exact digitChar_isDigit _

theorem descAt_lt (L : List (List Char)) (i j : Nat) (h : descAt L i = some j) : j < i := by
  rw [descAt] at h
  have hmem := List.mem_of_find?_eq_some h
  exact ((mem_descWindow i j).mp hmem).2

theorem stepAt_descStar (st : List (List Char) × Nat) (i m : Nat) (hm : m ≠ i) :
    DescStar (st.1.getD m []) ((stepAt st i).1.getD m []) := by
  rw [stepAt]
  cases hd : decideAt st.1 i with
  | none => exact DescStar_refl _
  | some nm =>
    dsimp only
    rw [applyAt]
    cases hdesc : descAt (multRewrite st.1 i nm) i with
    | none =>
      dsimp only
      rw [multRewrite_getD_ne st.1 i m nm hm]
      exact DescStar_refl _
    | some j =>
      dsimp only
      by_cases hj : m = j
      · subst hj
        by_cases hlen : m < ((multRewrite st.1 i nm).set m
            (descSubLine ((multRewrite st.1 i nm).getD m [])
              (if qle 0 nm then '+' else '-') (fmt_pct nm))).length
        · rw [getD_set_self _ m _ (by rw [length_set_eq] at hlen; exact hlen),
            multRewrite_getD_ne st.1 i m nm hm]
          refine DescStar_snoc _ _ _ _ (DescStar_refl _) ?_ (fmt_pct_chars nm)
          by_cases hq : qle 0 nm = true
          · rw [if_pos hq]
            left
            rfl
          · rw [if_neg hq]
            right
            rfl
        · rw [length_set_eq] at hlen
          have hst : st.1.length ≤ m := by
            rw [multRewrite, length_set_eq] at hlen
            omega
          have h1 : ((multRewrite st.1 i nm).set m
              (descSubLine ((multRewrite st.1 i nm).getD m [])
                (if qle 0 nm then '+' else '-') (fmt_pct nm))).getD m [] = [] :=
            getD_default _ m (by rw [length_set_eq]; omega)
          rw [h1, getD_default st.1 m hst]
          exact DescStar_refl _
      · rw [getD_set_ne _ j m _ hj, multRewrite_getD_ne st.1 i m nm hm]
        exact DescStar_refl _

theorem stepAt_getD_gt (st : List (List Char) × Nat) (i m : Nat) (him : i < m) :
    (stepAt st i).1.getD m [] = st.1.getD m [] := by
  rw [stepAt]
  cases hd : decideAt st.1 i with
  | none => rfl
  | some nm =>
    dsimp only
    rw [applyAt]
    cases hdesc : descAt (multRewrite st.1 i nm) i with
    | none =>
      dsimp only
      exact multRewrite_getD_ne st.1 i m nm (by omega)
    | some j =>
      dsimp only
      have hji : j < i := descAt_lt _ i j hdesc
      rw [getD_set_ne _ j m _ (by omega), multRewrite_getD_ne st.1 i m nm (by omega)]

theorem traj_succ (L0 : List (List Char)) (j : Nat) :
    traj L0 (j + 1) = stepAt (traj L0 j) j := by
  rw [traj, traj, List.range_succ, List.foldl_append]
  rfl

theorem traj_length (L0 : List (List Char)) (j : Nat) :
    (traj L0 j).1.length = L0.length := by
  rw [traj]
  exact foldl_stepAt_length (List.range j) (L0, 0)

theorem traj_getD_orig (L0 : List (List Char)) : ∀ j m : Nat, j ≤ m →
    (traj L0 j).1.getD m [] = L0.getD m [] := by
  intro j
  induction j with
  | zero =>
    intro m _
    rfl
  | succ j ih =>
    intro m hm
    rw [traj_succ, stepAt_getD_gt _ j m (by omega), ih m (by omega)]

theorem traj_descStar (L0 : List (List Char)) (i : Nat) : ∀ j : Nat, i ≤ j →
    ∀ m : Nat, m < i →
    DescStar ((traj L0 i).1.getD m []) ((traj L0 j).1.getD m []) := by
  intro j
  induction j with
  | zero =>
    intro hij m hm
    have : i = 0 := by omega
    subst this
    exact DescStar_refl _
  | succ j ih =>
    intro hij m hm
    by_cases hi : i = j + 1
    · subst hi
      exact DescStar_refl _
    · have hij2 : i ≤ j := by omega
      rw [traj_succ]
      exact DescStar_trans _ _ _ (ih hij2 m hm)
        (stepAt_descStar (traj L0 j) j m (by omega))

theorem decideAt_some_decomp (L : List (List Char)) (i : Nat) (nm : ℚ)
    (h : decideAt L i = some nm) :
    ∃ tgt num row, occAt L i = some (tgt, num) ∧ rowAt L i = some row ∧
      compute_mult row tgt = some nm ∧
      qlt (qabs (nm - parseNum num)) (1 / 1000) = false := by
  rw [decideAt] at h
  cases hocc : occAt L i with
  | none => rw [hocc] at h; exact absurd h (by simp)
  | some tn =>
    obtain ⟨tgt, num⟩ := tn
    rw [hocc] at h
    dsimp only at h
    cases hrow : rowAt L i with
    | none => rw [hrow] at h; exact absurd h (by simp)
    | some row =>
      rw [hrow] at h
      dsimp only at h
      cases hcm : compute_mult row tgt with
      | none => rw [hcm] at h; exact absurd h (by simp)
      | some nm2 =>
        rw [hcm] at h
        dsimp only at h
        by_cases htol : qlt (qabs (nm2 - parseNum num)) (1 / 1000) = true
        · rw [if_pos htol] at h
          exact absurd h (by simp)
        · rw [if_neg htol] at h
          injection h with h
          subst h
          exact ⟨tgt, num, row, rfl, rfl, hcm, Bool.eq_false_iff.mpr htol⟩

theorem pass2_decide_none (lines : List (List Char))
    (H : ∀ l ∈ lines, countSub mLit l ≤ 1) (i : Nat) (hi : i < lines.length) :
    decideAt (traj lines lines.length).1 i = none := by
  have hds_w : ∀ m, m < i →
      DescStar ((traj lines i).1.getD m []) ((traj lines lines.length).1.getD m []) :=
    fun m hm => traj_descStar lines i lines.length (by omega) m hm
  have hds_i : DescStar ((traj lines (i + 1)).1.getD i [])
      ((traj lines lines.length).1.getD i []) :=
    traj_descStar lines (i + 1) lines.length (by omega) i (by omega)
  have hrow : rowAt (traj lines lines.length).1 i = rowAt (traj lines i).1 i := by
    rw [rowAt, rowAt]
    apply findSome?_congr
    intro j hj
    have hji : j < i := ((mem_rowWindow i j).mp hj).2
    exact searchRow_descStar _ _ (hds_w j hji)
  cases hdec : decideAt (traj lines i).1 i with
  | none =>
    have hline : (traj lines (i + 1)).1.getD i [] = (traj lines i).1.getD i [] := by
      rw [traj_succ, show stepAt (traj lines i) i = traj lines i from by rw [stepAt, hdec]]
    rw [hline] at hds_i
    have hocc : occAt (traj lines lines.length).1 i = occAt (traj lines i).1 i := by
      rw [occAt, occAt, searchTM_descStar _ _ hds_i]
    rw [decideAt, hocc, hrow, ← decideAt]
    exact hdec
  | some nm =>
    obtain ⟨tgt, num, row, hocc_s, hrow_s, hcm, htol⟩ :=
      decideAt_some_decomp (traj lines i).1 i nm hdec
    have hstep : (traj lines (i + 1)).1.getD i [] =
        subMultLine ((traj lines i).1.getD i []) (fmt2 nm) := by
      rw [traj_succ, stepAt, hdec]
      dsimp only
      rw [applyAt]
      cases hdc : descAt (multRewrite (traj lines i).1 i nm) i with
      | none =>
        dsimp only
        exact multRewrite_getD_self (traj lines i).1 i nm
      | some j =>
        dsimp only
        have hji : j < i := descAt_lt _ i j hdc
        rw [getD_set_ne _ j i _ (by omega)]
        exact multRewrite_getD_self (traj lines i).1 i nm
    have hcount : countSub mLit ((traj lines i).1.getD i []) ≤ 1 := by
      rw [traj_getD_orig lines i i (le_refl i)]
      have h1 : lines.getD i [] = lines[i] := by
        rw [List.getD_eq_getElem?_getD, List.getElem?_eq_getElem hi]
        rfl
      rw [h1]
      exact H lines[i] (List.getElem_mem hi)
    have hsearch_s : searchTM ((traj lines i).1.getD i []) = some (tgt, num) := by
      rw [occAt] at hocc_s
      exact hocc_s
    rw [hstep] at hds_i
    have hocc1 : occAt (traj lines lines.length).1 i = some (tgt, fmt2 nm) := by
      rw [occAt, searchTM_descStar _ _ hds_i]
      exact searchTM_subMult _ tgt num nm hcount hsearch_s
    obtain ⟨k, hk⟩ := compute_two_dec row tgt nm hcm
    have hpb : parseNum (fmt2 nm) = nm := by
      rw [hk]
      exact parse_fmt2 k
    rw [decideAt, hocc1]
    dsimp only
    rw [hrow, hrow_s]
    dsimp only
    rw [hcm]
    dsimp only
    rw [hpb, sub_self,
      if_pos (show qlt (qabs 0) (1 / 1000) = true from by with_unfolding_all rfl)]

theorem foldl_stepAt_id (L : List (List Char)) : ∀ (is : List Nat),
    (∀ i ∈ is, decideAt L i = none) → ∀ c : Nat, is.foldl stepAt (L, c) = (L, c) := by
  intro is
  induction is with
  | nil =>
    intro _ c
    rfl
  | cons a t ih =>
    intro h c
    rw [List.foldl_cons, stepAt_of_decideAt_none L a c (h a (by simp))]
    exact ih (fun i hi => h i (by simp [hi])) c

/-- C1 counterexample: on the three-line document `cexDoc3` — whose middle
line carries two `multiplier:` literals, so the occurrence regex captures the
second while `re.sub` rewrites the first — the patcher's second pass reports
one change (not 0) and alters the bytes of line 0 (the shared
`effectDescription` line receives the other occurrence's percentage). -/
theorem C1_counterexample :
    (process_skill_file (process_skill_file cexDoc3).1).2 = 1 ∧
    (process_skill_file (process_skill_file cexDoc3).1).1 ≠ (process_skill_file cexDoc3).1 := by
  refine ⟨by with_unfolding_all rfl, ?_⟩
  intro h
  have h2 : (process_skill_file (process_skill_file cexDoc3).1).1.getD 0 [] =
      (process_skill_file cexDoc3).1.getD 0 [] := by rw [h]
  have h1 : decide ((process_skill_file (process_skill_file cexDoc3).1).1.getD 0 [] =
      (process_skill_file cexDoc3).1.getD 0 []) = false := by with_unfolding_all rfl
  rw [h2] at h1
  simp at h1

/-- C1 (corrected): idempotence of the skill-file patching transformation
holds for every line list in which no single line contains the literal
`multiplier:` more than once.  Under that hypothesis a second application of
`process_skill_file` returns the once-patched line list unchanged and reports
a change count of 0.  (Without the hypothesis the claim is false: see the
counterexample, where a line with two `multiplier:` literals makes the regex
capture one occurrence while `re.sub` rewrites the other, so every pass keeps
reporting changes.) -/
theorem C1_idempotence_amended (lines : List (List Char))
    (H : ∀ l ∈ lines, countSub mLit l ≤ 1) :
    process_skill_file (process_skill_file lines).1 = ((process_skill_file lines).1, 0) := by
  have hlen : (process_skill_file lines).1.length = lines.length := by
    rw [process_skill_file]
    exact foldl_stepAt_length (List.range lines.length) (lines, 0)
  rw [process_skill_file]
  apply foldl_stepAt_id
  intro i hi
  rw [List.mem_range, hlen] at hi
  show decideAt (traj lines lines.length).1 i = none
  exact pass2_decide_none lines H i hi

theorem C1_witness :
    (∀ l ∈ wellDoc, countSub mLit l ≤ 1) ∧
    process_skill_file (process_skill_file wellDoc).1 = ((process_skill_file wellDoc).1, 0) :=
  ⟨by decide, C1_idempotence_amended wellDoc (by decide)⟩
